import Mathlib

/-!
Verification of the minesweeper board simulation implemented in `src/game.rs`.

The game keeps its board as a collection of cell entities.  Each entity owns a
static `Cell { x, y, is_bomb }`, a display material handle, and two marker
components `Covered` and `Flagged` (a flagged cell still carries `Covered`).
We embed an entity as the structure `Ent` and the board as a `List Ent`; an
entity id is the index into that list, and `w[i]?` plays the role of
`query.get(i)`.

Revealing works through deferred commands: `uncover` (the click handler)
queues `remove::<Covered>` commands, and every applied removal fires the
`on_uncover` observer, which recolours the cell and, for a zero-count cell,
queues removals for its covered unflagged neighbours.  Removing `Covered`
from an already uncovered entity is a no-op and fires nothing.  We embed this
as the worklist loop `processF`: popping a covered index uncovers it and runs
the observer body, popping anything else is skipped.  `processF` is driven by
fuel; the wrapper `process` supplies the fuel `pmeasure w q + 1`, which the
lemma `processF_spec` proves sufficient, so `process` is total and
computable while agreeing with the unbounded recursion.

The order in which sibling removals are applied is not fixed by the source
(it depends on engine scheduling), so the queue discipline is a parameter: a
`CascadeOrder` may permute the appended work at every step.  The bundled
`CascadeOrder.Lawful` says each reordering is a permutation; `ordId` is the
straight first-in-first-out discipline.  The characterisation theorem
`process_spec` describes the result of any lawful run, which yields the
order-independence property claimed by the spec.
-/

/-- color handles created in `Materials::from_world` (`game.rs` lines 33-58). -/
inductive ColorId where
  | white
  | red200
  | red400
  | red600
  | red800
  | red900
  | sky300
  | sky400
  | green
  | red
deriving DecidableEq, Repr

/-- the `count` material array of the `Materials` resource (`game.rs` lines
40-49): eight handles, indexed in `on_uncover` by the adjacent-bomb count of
the freshly uncovered cell. -/
def materialsCount : List ColorId :=
  [.white, .red200, .red400, .red600, .red800, .red900, .red900, .red900]

/-- display state of a cell entity, abstracting the `ColorMaterial` handle
stored in its `MeshMaterial2d` component.  `count n` stands for
`materials.count[n]`, the colour keyed by the adjacent-bomb count. -/
inductive MaterialKind where
  | covered
  | hovered
  | flagged
  | bomb
  | count (n : Nat)
deriving DecidableEq, Repr

/-- static cell data (`game.rs` lines 81-87). -/
structure Cell where
  x : Int
  y : Int
  is_bomb : Bool
deriving DecidableEq, Repr

/-- one board entity as seen by `BoardQuery` (`game.rs` lines 124-132): the
static cell, the current material, and the presence of the `Covered` and
`Flagged` marker components. -/
structure Ent where
  cell : Cell
  material : MaterialKind
  covered : Bool
  flagged : Bool
deriving DecidableEq, Repr

/-- the session state machine (`game.rs` lines 60-66). -/
inductive GameState where
  | Prepare
  | Running
  | Over
deriving DecidableEq, Repr

/-- the adjacency test used by the filter closure in `count_adjacents`
(`game.rs` lines 145-151). -/
def adjacentTo (t c : Cell) : Bool :=
  t.x - 1 ≤ c.x && c.x ≤ t.x + 1 && t.y - 1 ≤ c.y && c.y ≤ t.y + 1 &&
    !(c.x == t.x && c.y == t.y)

/-- whether entity `i` currently carries the `Covered` component. -/
def coveredB (w : List Ent) (i : Nat) : Bool :=
  match w[i]? with
  | some e => e.covered
  | none => false

/-- whether entity `i` currently carries the `Flagged` component. -/
def flaggedB (w : List Ent) (i : Nat) : Bool :=
  match w[i]? with
  | some e => e.flagged
  | none => false

/-- whether entity `i` is a mine. -/
def bombB (w : List Ent) (i : Nat) : Bool :=
  match w[i]? with
  | some e => e.cell.is_bomb
  | none => false

/-- whether entity `j` passes the adjacency filter of `count_adjacents` run
for target `i`. -/
def adjB (w : List Ent) (i j : Nat) : Bool :=
  match w[i]?, w[j]? with
  | some t, some e => adjacentTo t.cell e.cell
  | _, _ => false

/-- ids of the entities passing the adjacency filter for target `i`: the
`adjacents` iterator of `count_adjacents` (`game.rs` lines 144-151). -/
def adjIdxs (w : List Ent) (i : Nat) : List Nat :=
  (List.range w.length).filter (adjB w i)

/-- the `adjacents` vector returned by `count_adjacents` (`game.rs` lines
157-161): adjacent entities that are covered and not flagged. -/
def cascadeList (w : List Ent) (i : Nat) : List Nat :=
  (adjIdxs w i).filter (fun j => !flaggedB w j && coveredB w j)

/-- the `cnt_bombs` count of `count_adjacents` (`game.rs` line 152). -/
def cntBombsAt (w : List Ent) (i : Nat) : Nat :=
  ((adjIdxs w i).filter (bombB w)).length

/-- the `cnt_flagged` count of `count_adjacents` (`game.rs` lines 153-156). -/
def cntFlaggedAt (w : List Ent) (i : Nat) : Nat :=
  ((adjIdxs w i).filter (flaggedB w)).length

/-- the query `InterationParam::count_adjacents` (`game.rs` lines 142-163).  Returns
`none` exactly when `query.get(target)` fails, mirroring the `?` early
return. -/
def count_adjacents (w : List Ent) (target : Nat) :
    Option (List Nat × Nat × Nat) :=
  match w[target]? with
  | some _ => some (cascadeList w target, cntBombsAt w target, cntFlaggedAt w target)
  | none => none

/-- removal of the `Covered` component plus the material write performed by
`on_uncover` on the same entity. -/
def uncoverEnt (e : Ent) (m : MaterialKind) : Ent :=
  { e with covered := false, material := m }

/-- the material `on_uncover` assigns to entity `i` once it is uncovered
(`game.rs` lines 223-229). -/
def revealMat (w : List Ent) (i : Nat) : MaterialKind :=
  if bombB w i then .bomb else .count (cntBombsAt w i)

/-- a queue discipline for the deferred `remove::<Covered>` commands.  The
engine does not promise an order for sibling commands, so the embedding takes
the order as a parameter: `qord i rest adds` builds the queue after the
observer for `i` appended `adds`, `chordOrd` orders the neighbours revealed
by a chord, and `bombOrd` orders the end-of-game mine disclosure. -/
structure CascadeOrder where
  qord : Nat → List Nat → List Nat → List Nat
  chordOrd : Nat → List Nat → List Nat
  bombOrd : List Nat → List Nat

/-- a queue discipline is lawful when every reordering is a permutation of
the queue the straight discipline would build. -/
structure CascadeOrder.Lawful (o : CascadeOrder) : Prop where
  qord_perm : ∀ i rest adds, List.Perm (o.qord i rest adds) (rest ++ adds)
  chord_perm : ∀ i l, List.Perm (o.chordOrd i l) l
  bomb_perm : ∀ l, List.Perm (o.bombOrd l) l

/-- the first-in-first-out discipline actually used when commands are applied
in submission order. -/
def ordId : CascadeOrder where
  qord := fun _ rest adds => rest ++ adds
  chordOrd := fun _ l => l
  bombOrd := fun l => l

/-- a discipline that reverses every batch of freshly queued work. -/
def ordRev : CascadeOrder where
  qord := fun _ rest adds => rest ++ adds.reverse
  chordOrd := fun _ l => l.reverse
  bombOrd := fun l => l.reverse

/-- number of entities still carrying `Covered`. -/
def countCovered (w : List Ent) : Nat :=
  List.countP (fun e => e.covered) w

/-- termination measure for the command queue: every pop either consumes a
queue entry or uncovers a cell (queuing at most `w.length` new entries). -/
def pmeasure (w : List Ent) (q : List Nat) : Nat :=
  countCovered w * (w.length + 1) + q.length

/-- execution of the pending `remove::<Covered>` queue.  Popping `i` removes
`Covered` from entity `i` if it is still present, which fires the
`on_uncover` observer (`game.rs` lines 215-237, 368-379): a mine turns red
and raises the game-over flag; otherwise the cell gets the count material
and, when the count is zero, its covered unflagged neighbours are queued.
Popping an entity whose `Covered` is already gone fires nothing.  The
recursion is bounded by explicit fuel; `none` means the fuel ran out. -/
def processF (o : CascadeOrder) :
    Nat → List Ent → List Nat → Bool → Option (List Ent × Bool)
  | 0, _, _, _ => none
  | Nat.succ fuel, w, q, hit =>
    match q with
    | [] => some (w, hit)
    | i :: rest =>
      match w[i]? with
      | none => processF o fuel w rest hit
      | some ent =>
        if ent.covered then
          if ent.cell.is_bomb then
            processF o fuel (w.set i (uncoverEnt ent .bomb)) rest true
          else if cntBombsAt w i = 0 then
            processF o fuel (w.set i (uncoverEnt ent (.count (cntBombsAt w i))))
              (o.qord i rest (cascadeList w i)) hit
          else
            processF o fuel (w.set i (uncoverEnt ent (.count (cntBombsAt w i)))) rest hit
        else
          processF o fuel w rest hit

/-- total wrapper around `processF` with fuel proven sufficient by
`processF_complete`: runs a command queue to completion and returns the final
board together with the mine-hit flag accumulated by `on_uncover`. -/
def process (o : CascadeOrder) (w : List Ent) (q : List Nat) (hit : Bool) :
    List Ent × Bool :=
  (processF o (pmeasure w q + 1) w q hit).getD (w, hit)

/-- the handler `InterationParam::toggle_flag` (`game.rs` lines 165-184). -/
def toggle_flag (w : List Ent) (target : Nat) : List Ent :=
  match w[target]? with
  | none => w
  | some ent =>
    if !ent.covered then
      w
    else if ent.flagged then
      w.set target { ent with material := .covered, flagged := false }
    else
      w.set target { ent with material := .flagged, flagged := true }

/-- the handler `InterationParam::uncover` (`game.rs` lines 186-213) together with the
observer chain its queued commands fire.  A flagged target is ignored; a
covered target is queued for removal; an already uncovered target chords:
when `cnt_flagged >= cnt_bombs` all covered unflagged neighbours are queued.
The returned flag records whether some `on_uncover` reported a mine. -/
def uncover (o : CascadeOrder) (w : List Ent) (target : Nat) :
    List Ent × Bool :=
  match count_adjacents w target, w[target]? with
  | some (adjacents, cnt_bombs, cnt_flagged), some ent =>
    if ent.flagged then (w, false)
    else if ent.covered then process o w [target] false
    else if cnt_bombs ≤ cnt_flagged then
      process o w (o.chordOrd target adjacents) false
    else (w, false)
  | _, _ => (w, false)

/-- the system `reveal_bombs` (`game.rs` lines 381-387): on entering `GameState::Over`
every covered mine has its `Covered` component removed; the fired observers
recolour those mines.  Mines never cascade, so only they change. -/
def reveal_bombs (o : CascadeOrder) (w : List Ent) : List Ent :=
  (process o w
    (o.bombOrd ((List.range w.length).filter (fun i => coveredB w i && bombB w i)))
    false).1

/-- the `success` win-check system (`game.rs` lines 255-264): the game is won
when at least one covered cell remains and every covered cell is a mine. -/
def success (w : List Ent) : Bool :=
  (w.filter (fun e => e.covered)).length != 0 &&
    (w.filter (fun e => e.covered)).all (fun e => e.cell.is_bomb)

/-- player commands delivered by the `interact` observer (`game.rs` lines
345-366): a primary click uncovers, a secondary click toggles the flag. -/
inductive Cmd where
  | reveal (target : Nat)
  | toggleFlag (target : Nat)
deriving DecidableEq, Repr

/-- a game session: the board entities plus the `GameState` resource. -/
structure Session where
  world : List Ent
  state : GameState
deriving DecidableEq, Repr

/-- one player command processed to quiescence: `interact` ignores commands
unless the game is running; a mine hit or a passed win check moves the state
to `Over`, and entering `Over` runs `reveal_bombs` (`game.rs` lines 345-379,
255-264, 398-406). -/
def sessionStep (o : CascadeOrder) (s : Session) (c : Cmd) : Session :=
  match s.state with
  | GameState.Running =>
    match c with
    | Cmd.reveal t =>
      let r := uncover o s.world t
      if r.2 then { world := reveal_bombs o r.1, state := .Over }
      else if success r.1 then { world := reveal_bombs o r.1, state := .Over }
      else { world := r.1, state := .Running }
    | Cmd.toggleFlag t =>
      let w := toggle_flag s.world t
      if success w then { world := reveal_bombs o w, state := .Over }
      else { world := w, state := .Running }
  | _ => s

/-- a whole fixed command sequence processed in order. -/
def runSession (o : CascadeOrder) (s : Session) (cs : List Cmd) : Session :=
  cs.foldl (sessionStep o) s

/-- the boolean vector built by `Board::new` before shuffling (`game.rs` line
100): slot `idx` is a mine when `idx < bombs`. -/
def initialBombs (columns rows bombs : Int) : List Bool :=
  (List.range (columns * rows).toNat).map
    (fun (idx : Nat) => decide ((idx : Int) < bombs))

/-- the cell vector built by `Board::new` from the shuffled boolean vector
(`game.rs` lines 102-110): slot `idx` becomes the cell at
`(idx % columns, idx / columns)`. -/
def boardCells (columns : Int) (bools : List Bool) : List Cell :=
  bools.enum.map (fun p =>
    { x := (p.1 : Int) % columns, y := (p.1 : Int) / columns, is_bomb := p.2 })

/-- the entities spawned by `prepare` (`game.rs` lines 280-299): every cell
starts covered, unflagged, with the covered material. -/
def spawnWorld (cells : List Cell) : List Ent :=
  cells.map (fun c =>
    { cell := c, material := .covered, covered := true, flagged := false })

/-- whether the `on_uncover` observer for a freshly uncovered `i` would queue
its neighbours: `i` is not a mine and its adjacent-bomb count is zero. -/
def expandsB (w : List Ent) (i : Nat) : Bool :=
  !bombB w i && (cntBombsAt w i == 0)

/-- one cascade step relative to the board state `w`: a covered zero-count
non-mine cell `i` queues its covered unflagged neighbour `j`. -/
def edgeRel (w : List Ent) (i j : Nat) : Prop :=
  coveredB w i = true ∧ expandsB w i = true ∧ j ∈ cascadeList w i

/-- the set of cells a command queue `q` can reach through cascade steps, all
measured against the board state `w` at the start of the run. -/
def cascReach (w : List Ent) (q : List Nat) (j : Nat) : Prop :=
  ∃ s ∈ q, Relation.ReflTransGen (edgeRel w) s j

/-- full description of a completed queue run starting from board `w`, queue
`q` and accumulated flag `hit`: the final board has the same shape, exactly
the initially covered cells reachable by cascade steps are uncovered and
recoloured by `revealMat`, everything else is untouched, and the final flag
records whether a mine was uncovered. -/
def ProcessOut (w : List Ent) (q : List Nat) (hit : Bool)
    (wEnd : List Ent) (hitEnd : Bool) : Prop :=
  wEnd.length = w.length ∧
  (∀ j, coveredB w j = true → cascReach w q j →
    wEnd[j]? = (w[j]?).map (fun e => uncoverEnt e (revealMat w j))) ∧
  (∀ j, ¬(coveredB w j = true ∧ cascReach w q j) → wEnd[j]? = w[j]?) ∧
  (hitEnd = true ↔
    (hit = true ∨ ∃ j, coveredB w j = true ∧ cascReach w q j ∧ bombB w j = true))

/-- a two-cell board, mine on the right: revealing the left cell wins. -/
def wWin : List Ent := spawnWorld (boardCells 2 [false, true])

/-- a shuffle outcome for `Board::new(30, 16, 70)` that surrounds the safe
cell at `(1, 1)` (slot 31) with eight mines: slots 0 to 70 except 31. -/
def bs480 : List Bool :=
  (List.range 480).map (fun idx => decide (idx ≤ 70 ∧ idx ≠ 31))

/-- the freshly spawned board for the `bs480` shuffle outcome. -/
def w480 : List Ent := spawnWorld (boardCells 30 bs480)

/-- a mine-free one-row board of three cells whose middle cell the player has
flagged. -/
def wRow : List Ent :=
  toggle_flag (spawnWorld (boardCells 3 [false, false, false])) 1

/-- a mine-free two-by-two board, freshly spawned. -/
def wOpen : List Ent := spawnWorld (boardCells 2 [false, false, false, false])

/-- a two-by-two board with a mine at `(1, 1)`, after the player revealed
`(0, 0)` and flagged the mine: a chord on `(0, 0)` is enabled. -/
def wChord : List Ent :=
  toggle_flag (uncover ordId (spawnWorld (boardCells 2 [false, false, false, true])) 0).1 3

/-- a single-cell board whose only cell is a mine. -/
def wMine : List Ent := spawnWorld (boardCells 1 [true])

/-- a mine-free one-column board of two cells, for flag toggling. -/
def wTog : List Ent := spawnWorld (boardCells 1 [false, false])

/-- a two-cell board, mine on the left, for the end-of-game disclosure. -/
def wBombs : List Ent := spawnWorld (boardCells 2 [true, false])

/-- a mine-free three-by-three board, for the neighbourhood contract. -/
def wNine : List Ent :=
  spawnWorld (boardCells 3 [false, false, false, false, false, false, false, false, false])

/-! ## Pointwise lemmas about board reads -/

theorem coveredB_get {w : List Ent} {i : Nat} {ent : Ent} (h : w[i]? = some ent) :
    coveredB w i = ent.covered := by
  simp [coveredB, h]

theorem flaggedB_get {w : List Ent} {i : Nat} {ent : Ent} (h : w[i]? = some ent) :
    flaggedB w i = ent.flagged := by
  simp [flaggedB, h]

theorem bombB_get {w : List Ent} {i : Nat} {ent : Ent} (h : w[i]? = some ent) :
    bombB w i = ent.cell.is_bomb := by
  simp [bombB, h]

theorem exists_get_of_coveredB {w : List Ent} {i : Nat} (h : coveredB w i = true) :
    ∃ ent, w[i]? = some ent ∧ ent.covered = true := by
  by_cases hw : w[i]? = none
  · simp [coveredB, hw] at h
  · obtain ⟨e, he⟩ := Option.ne_none_iff_exists'.1 hw
    exact ⟨e, he, by simpa [coveredB, he] using h⟩

theorem exists_get_of_bombB {w : List Ent} {i : Nat} (h : bombB w i = true) :
    ∃ ent, w[i]? = some ent ∧ ent.cell.is_bomb = true := by
  by_cases hw : w[i]? = none
  · simp [bombB, hw] at h
  · obtain ⟨e, he⟩ := Option.ne_none_iff_exists'.1 hw
    exact ⟨e, he, by simpa [bombB, he] using h⟩

theorem mem_adjIdxs {w : List Ent} {i j : Nat} :
    j ∈ adjIdxs w i ↔ j < w.length ∧ adjB w i j = true := by
  simp [adjIdxs, List.mem_filter, List.mem_range]

theorem mem_cascadeList {w : List Ent} {i j : Nat} :
    j ∈ cascadeList w i ↔
      j ∈ adjIdxs w i ∧ flaggedB w j = false ∧ coveredB w j = true := by
  simp only [cascadeList, List.mem_filter, Bool.and_eq_true, Bool.not_eq_true']

theorem adjacentTo_self (c : Cell) : adjacentTo c c = false := by
  simp [adjacentTo]

theorem not_mem_adjIdxs_self {w : List Ent} {i : Nat} : i ∉ adjIdxs w i := by
  intro h
  rcases mem_adjIdxs.1 h with ⟨-, hadj⟩
  by_cases hw : w[i]? = none
  · simp [adjB, hw] at hadj
  · obtain ⟨t, ht⟩ := Option.ne_none_iff_exists'.1 hw
    simp [adjB, ht, adjacentTo_self] at hadj

theorem ne_of_mem_cascadeList {w : List Ent} {i j : Nat}
    (h : j ∈ cascadeList w i) : j ≠ i := by
  rintro rfl
  exact not_mem_adjIdxs_self (mem_cascadeList.1 h).1

theorem cascadeList_length_le (w : List Ent) (i : Nat) :
    (cascadeList w i).length ≤ w.length := by
  calc (cascadeList w i).length ≤ (adjIdxs w i).length :=
        List.length_filter_le _ _
    _ ≤ (List.range w.length).length := List.length_filter_le _ _
    _ = w.length := List.length_range _

theorem bombB_eq_false_of_expands {w : List Ent} {i j : Nat}
    (h : expandsB w i = true) (hj : j ∈ adjIdxs w i) : bombB w j = false := by
  have h' := h
  rw [expandsB, Bool.and_eq_true] at h'
  obtain ⟨-, hcnt⟩ := h'
  have hcnt' : cntBombsAt w i = 0 := by simpa using hcnt
  have hnil : (adjIdxs w i).filter (bombB w) = [] := List.length_eq_zero.1 hcnt'
  by_contra hb
  have hmem : j ∈ (adjIdxs w i).filter (bombB w) :=
    List.mem_filter.2 ⟨hj, by revert hb; cases bombB w j <;> simp⟩
  rw [hnil] at hmem
  cases hmem

/-! ## Transfer lemmas: uncovering one entity -/

theorem getElem?_setUncover {w : List Ent} {i : Nat} {ent : Ent}
    (hi : w[i]? = some ent) (m : MaterialKind) (j : Nat) :
    (w.set i (uncoverEnt ent m))[j]? =
      if j = i then some (uncoverEnt ent m) else w[j]? := by
  rcases eq_or_ne j i with rfl | hne
  · have hlt : j < w.length := (List.getElem?_eq_some.1 hi).1
    simp [List.getElem?_set_self hlt]
  · simp [List.getElem?_set_ne (Ne.symm hne), hne]

theorem coveredB_setUncover {w : List Ent} {i : Nat} {ent : Ent}
    (hi : w[i]? = some ent) (m : MaterialKind) (j : Nat) :
    coveredB (w.set i (uncoverEnt ent m)) j =
      if j = i then false else coveredB w j := by
  unfold coveredB
  rw [getElem?_setUncover hi m j]
  rcases eq_or_ne j i with rfl | hne
  · simp [uncoverEnt]
  · simp [hne]

theorem flaggedB_setUncover {w : List Ent} {i : Nat} {ent : Ent}
    (hi : w[i]? = some ent) (m : MaterialKind) (j : Nat) :
    flaggedB (w.set i (uncoverEnt ent m)) j = flaggedB w j := by
  unfold flaggedB
  rw [getElem?_setUncover hi m j]
  rcases eq_or_ne j i with rfl | hne
  · simp [uncoverEnt, hi]
  · simp [hne]

theorem bombB_setUncover {w : List Ent} {i : Nat} {ent : Ent}
    (hi : w[i]? = some ent) (m : MaterialKind) (j : Nat) :
    bombB (w.set i (uncoverEnt ent m)) j = bombB w j := by
  unfold bombB
  rw [getElem?_setUncover hi m j]
  rcases eq_or_ne j i with rfl | hne
  · simp [uncoverEnt, hi]
  · simp [hne]

theorem adjB_setUncover {w : List Ent} {i : Nat} {ent : Ent}
    (hi : w[i]? = some ent) (m : MaterialKind) (a b : Nat) :
    adjB (w.set i (uncoverEnt ent m)) a b = adjB w a b := by
  unfold adjB
  rw [getElem?_setUncover hi m a, getElem?_setUncover hi m b]
  by_cases ha : a = i
  · by_cases hb : b = i
    · simp [ha, hb, hi, uncoverEnt]
    · cases hB : w[b]? <;> simp [ha, hb, hi, hB, uncoverEnt]
  · by_cases hb : b = i
    · cases hA : w[a]? <;> simp [ha, hb, hi, hA, uncoverEnt]
    · simp [ha, hb]

theorem adjIdxs_setUncover {w : List Ent} {i : Nat} {ent : Ent}
    (hi : w[i]? = some ent) (m : MaterialKind) (a : Nat) :
    adjIdxs (w.set i (uncoverEnt ent m)) a = adjIdxs w a := by
  unfold adjIdxs
  rw [List.length_set]
  exact List.filter_congr (fun j _ => adjB_setUncover hi m a j)

theorem cntBombsAt_setUncover {w : List Ent} {i : Nat} {ent : Ent}
    (hi : w[i]? = some ent) (m : MaterialKind) (a : Nat) :
    cntBombsAt (w.set i (uncoverEnt ent m)) a = cntBombsAt w a := by
  unfold cntBombsAt
  rw [adjIdxs_setUncover hi m a,
    List.filter_congr (fun j _ => bombB_setUncover hi m j)]

theorem cntFlaggedAt_setUncover {w : List Ent} {i : Nat} {ent : Ent}
    (hi : w[i]? = some ent) (m : MaterialKind) (a : Nat) :
    cntFlaggedAt (w.set i (uncoverEnt ent m)) a = cntFlaggedAt w a := by
  unfold cntFlaggedAt
  rw [adjIdxs_setUncover hi m a,
    List.filter_congr (fun j _ => flaggedB_setUncover hi m j)]

theorem expandsB_setUncover {w : List Ent} {i : Nat} {ent : Ent}
    (hi : w[i]? = some ent) (m : MaterialKind) (a : Nat) :
    expandsB (w.set i (uncoverEnt ent m)) a = expandsB w a := by
  unfold expandsB
  rw [bombB_setUncover hi m a, cntBombsAt_setUncover hi m a]

theorem revealMat_setUncover {w : List Ent} {i : Nat} {ent : Ent}
    (hi : w[i]? = some ent) (m : MaterialKind) (a : Nat) :
    revealMat (w.set i (uncoverEnt ent m)) a = revealMat w a := by
  unfold revealMat
  rw [bombB_setUncover hi m a, cntBombsAt_setUncover hi m a]

theorem mem_cascadeList_setUncover {w : List Ent} {i : Nat} {ent : Ent}
    (hi : w[i]? = some ent) (m : MaterialKind) (a j : Nat) :
    j ∈ cascadeList (w.set i (uncoverEnt ent m)) a ↔
      j ∈ cascadeList w a ∧ j ≠ i := by
  rw [mem_cascadeList, mem_cascadeList, adjIdxs_setUncover hi m a,
    flaggedB_setUncover hi m j, coveredB_setUncover hi m j]
  rcases eq_or_ne j i with rfl | hne
  · simp
  · simp [hne]

/-! ## Measure bookkeeping -/

theorem countCovered_setUncover {w : List Ent} {i : Nat} {ent : Ent}
    (hi : w[i]? = some ent) (hc : ent.covered = true) (m : MaterialKind) :
    countCovered (w.set i (uncoverEnt ent m)) + 1 = countCovered w := by
  obtain ⟨hlt, hget⟩ := List.getElem?_eq_some.1 hi
  rw [countCovered, countCovered, List.set_eq_take_cons_drop _ hlt]
  conv_rhs => rw [← List.take_append_drop i w, ← List.getElem_cons_drop w i hlt]
  rw [List.countP_append, List.countP_append, List.countP_cons, List.countP_cons]
  simp only [uncoverEnt, hget, hc]
  simp
  omega

theorem pmeasure_skip (w : List Ent) (i : Nat) (rest : List Nat) :
    pmeasure w rest < pmeasure w (i :: rest) := by
  simp [pmeasure]

theorem pmeasure_uncover_lt {w : List Ent} {i : Nat} {ent : Ent}
    (hi : w[i]? = some ent) (hc : ent.covered = true) (m : MaterialKind)
    (rest q' : List Nat) (hq : q'.length ≤ rest.length + w.length) :
    pmeasure (w.set i (uncoverEnt ent m)) q' < pmeasure w (i :: rest) := by
  have hcc := countCovered_setUncover hi hc m
  unfold pmeasure
  rw [List.length_set, ← hcc, Nat.succ_mul]
  simp only [List.length_cons]
  omega

/-! ## Transfer of the cascade relation under uncovering -/

theorem edgeRel_setUncover_iff {w : List Ent} {i : Nat} {ent : Ent}
    (hi : w[i]? = some ent) (m : MaterialKind) (a b : Nat) :
    edgeRel (w.set i (uncoverEnt ent m)) a b ↔ edgeRel w a b ∧ a ≠ i ∧ b ≠ i := by
  unfold edgeRel
  rw [coveredB_setUncover hi m a, expandsB_setUncover hi m a,
    mem_cascadeList_setUncover hi m a b]
  by_cases ha : a = i
  · simp [ha]
  · simp [ha, and_assoc]

theorem rtg_setUncover_mono {w : List Ent} {i : Nat} {ent : Ent}
    (hi : w[i]? = some ent) (m : MaterialKind) {s j : Nat}
    (h : Relation.ReflTransGen (edgeRel (w.set i (uncoverEnt ent m))) s j) :
    Relation.ReflTransGen (edgeRel w) s j := by
  induction h with
  | refl => exact .refl
  | tail _ hbc ih => exact ih.tail ((edgeRel_setUncover_iff hi m _ _).1 hbc).1

theorem rtg_eq_of_not_covered {w : List Ent} {i j : Nat}
    (hc : coveredB w i = false)
    (h : Relation.ReflTransGen (edgeRel w) i j) : j = i := by
  rcases h.cases_head with heq | ⟨b, hib, -⟩
  · exact heq.symm
  · rw [hib.1] at hc; cases hc

theorem rtg_eq_of_not_expands {w : List Ent} {i j : Nat}
    (hne : expandsB w i = false)
    (h : Relation.ReflTransGen (edgeRel w) i j) : j = i := by
  rcases h.cases_head with heq | ⟨b, hib, -⟩
  · exact heq.symm
  · rw [hib.2.1] at hne; cases hne

theorem rtg_setUncover_of_stuck {w : List Ent} {i : Nat} {ent : Ent}
    (hi : w[i]? = some ent) (m : MaterialKind) (hstuck : expandsB w i = false)
    {s j : Nat} (h : Relation.ReflTransGen (edgeRel w) s j) :
    j = i ∨ (s ≠ i ∧
      Relation.ReflTransGen (edgeRel (w.set i (uncoverEnt ent m))) s j) := by
  induction h using Relation.ReflTransGen.head_induction_on with
  | refl =>
    by_cases hj : j = i
    · exact Or.inl hj
    · exact Or.inr ⟨hj, .refl⟩
  | @head a c hab _ ih =>
    rcases ih with hji | ⟨hci, hset⟩
    · exact Or.inl hji
    · by_cases hai : a = i
      · rw [hai] at hab
        rw [hab.2.1] at hstuck
        cases hstuck
      · exact Or.inr ⟨hai,
          .head ((edgeRel_setUncover_iff hi m a c).2 ⟨hab, hai, hci⟩) hset⟩

theorem rtg_setUncover_of_expands {w : List Ent} {i : Nat} {ent : Ent}
    (hi : w[i]? = some ent) (m : MaterialKind)
    {s j : Nat} (h : Relation.ReflTransGen (edgeRel w) s j) :
    j = i ∨ (s ≠ i ∧
        Relation.ReflTransGen (edgeRel (w.set i (uncoverEnt ent m))) s j) ∨
      (∃ a ∈ cascadeList w i,
        Relation.ReflTransGen (edgeRel (w.set i (uncoverEnt ent m))) a j) := by
  induction h using Relation.ReflTransGen.head_induction_on with
  | refl =>
    by_cases hj : j = i
    · exact Or.inl hj
    · exact Or.inr (Or.inl ⟨hj, .refl⟩)
  | @head a c hab _ ih =>
    rcases ih with hji | ⟨hci, hset⟩ | ⟨a', ha', hset⟩
    · exact Or.inl hji
    · by_cases hai : a = i
      · refine Or.inr (Or.inr ⟨c, ?_, hset⟩)
        rw [hai] at hab
        exact hab.2.2
      · exact Or.inr (Or.inl ⟨hai,
          .head ((edgeRel_setUncover_iff hi m a c).2 ⟨hab, hai, hci⟩) hset⟩)
    · exact Or.inr (Or.inr ⟨a', ha', hset⟩)

/-! ## Reachable sets of command queues -/

theorem cascReach_nil {w : List Ent} {j : Nat} : ¬cascReach w [] j := by
  rintro ⟨s, hs, -⟩
  cases hs

theorem cascReach_cons {w : List Ent} {i : Nat} {q : List Nat} {j : Nat} :
    cascReach w (i :: q) j ↔
      Relation.ReflTransGen (edgeRel w) i j ∨ cascReach w q j := by
  constructor
  · rintro ⟨s, hs, hrtg⟩
    rcases List.mem_cons.1 hs with rfl | hs'
    · exact Or.inl hrtg
    · exact Or.inr ⟨s, hs', hrtg⟩
  · rintro (hrtg | ⟨s, hs, hrtg⟩)
    · exact ⟨i, List.mem_cons_self i q, hrtg⟩
    · exact ⟨s, List.mem_cons_of_mem i hs, hrtg⟩

theorem cascReach_append {w : List Ent} {q₁ q₂ : List Nat} {j : Nat} :
    cascReach w (q₁ ++ q₂) j ↔ cascReach w q₁ j ∨ cascReach w q₂ j := by
  constructor
  · rintro ⟨s, hs, hrtg⟩
    rcases List.mem_append.1 hs with hs' | hs'
    · exact Or.inl ⟨s, hs', hrtg⟩
    · exact Or.inr ⟨s, hs', hrtg⟩
  · rintro (⟨s, hs, hrtg⟩ | ⟨s, hs, hrtg⟩)
    · exact ⟨s, List.mem_append_left _ hs, hrtg⟩
    · exact ⟨s, List.mem_append_right _ hs, hrtg⟩

theorem cascReach_perm {w : List Ent} {q q' : List Nat}
    (hp : List.Perm q q') {j : Nat} :
    cascReach w q j ↔ cascReach w q' j := by
  constructor
  · rintro ⟨s, hs, hrtg⟩
    exact ⟨s, hp.mem_iff.1 hs, hrtg⟩
  · rintro ⟨s, hs, hrtg⟩
    exact ⟨s, hp.mem_iff.2 hs, hrtg⟩

theorem cascReach_seed {w : List Ent} {q : List Nat} {j : Nat} (h : j ∈ q) :
    cascReach w q j :=
  ⟨j, h, .refl⟩

theorem cascReach_congr {w : List Ent} {q q' : List Nat}
    (h : ∀ s, s ∈ q ↔ s ∈ q') {j : Nat} :
    cascReach w q j ↔ cascReach w q' j := by
  constructor
  · rintro ⟨s, hs, hrtg⟩
    exact ⟨s, (h s).1 hs, hrtg⟩
  · rintro ⟨s, hs, hrtg⟩
    exact ⟨s, (h s).2 hs, hrtg⟩

/-! ## One pop of the command queue, seen through `ProcessOut` -/

theorem ProcessOut_skip {w : List Ent} {i : Nat} {rest : List Nat}
    {hit : Bool} {wE : List Ent} {hE : Bool}
    (hcov : coveredB w i = false)
    (h : ProcessOut w rest hit wE hE) : ProcessOut w (i :: rest) hit wE hE := by
  obtain ⟨hlen, hmain, hframe, hhitE⟩ := h
  have hreach : ∀ j, cascReach w (i :: rest) j ↔ j = i ∨ cascReach w rest j := by
    intro j
    constructor
    · intro hj
      rcases cascReach_cons.1 hj with hrtg | hr
      · exact Or.inl (rtg_eq_of_not_covered hcov hrtg)
      · exact Or.inr hr
    · intro hj
      rcases hj with rfl | hr
      · exact cascReach_cons.2 (Or.inl .refl)
      · exact cascReach_cons.2 (Or.inr hr)
  refine ⟨hlen, ?_, ?_, ?_⟩
  · intro j hcj hrj
    rcases (hreach j).1 hrj with rfl | hr
    · rw [hcov] at hcj; cases hcj
    · exact hmain j hcj hr
  · intro j hn
    refine hframe j ?_
    rintro ⟨hcj, hrj⟩
    exact hn ⟨hcj, (hreach j).2 (Or.inr hrj)⟩
  · rw [hhitE]
    constructor
    · rintro (hh | ⟨j, hcj, hrj, hbj⟩)
      · exact Or.inl hh
      · exact Or.inr ⟨j, hcj, (hreach j).2 (Or.inr hrj), hbj⟩
    · rintro (hh | ⟨j, hcj, hrj, hbj⟩)
      · exact Or.inl hh
      · rcases (hreach j).1 hrj with rfl | hr
        · rw [hcov] at hcj; cases hcj
        · exact Or.inr ⟨j, hcj, hr, hbj⟩

theorem ProcessOut_pop {w : List Ent} {i : Nat} {ent : Ent}
    (hw : w[i]? = some ent) (hcov : ent.covered = true) {m : MaterialKind}
    (hm : m = revealMat w i) {rest q' : List Nat} {hit hit' : Bool}
    (hhit : hit' = (hit || bombB w i))
    (hreach : ∀ j, cascReach w (i :: rest) j ↔
      j = i ∨ cascReach (w.set i (uncoverEnt ent m)) q' j)
    {wE : List Ent} {hE : Bool}
    (h : ProcessOut (w.set i (uncoverEnt ent m)) q' hit' wE hE) :
    ProcessOut w (i :: rest) hit wE hE := by
  obtain ⟨hlen, hmain, hframe, hhitE⟩ := h
  have hcovi : coveredB w i = true := by rw [coveredB_get hw]; exact hcov
  refine ⟨by rw [hlen, List.length_set], ?_, ?_, ?_⟩
  · intro j hcj hrj
    by_cases hji : j = i
    · subst hji
      have hne : ¬(coveredB (w.set j (uncoverEnt ent m)) j = true ∧
          cascReach (w.set j (uncoverEnt ent m)) q' j) := by
        rw [coveredB_setUncover hw m j, if_pos rfl]
        rintro ⟨hfalse, -⟩
        cases hfalse
      rw [hframe j hne, getElem?_setUncover hw m j, if_pos rfl, hw, hm]
      rfl
    · have hrj' : cascReach (w.set i (uncoverEnt ent m)) q' j := by
        rcases (hreach j).1 hrj with hji' | hr'
        · exact absurd hji' hji
        · exact hr'
      have hcj' : coveredB (w.set i (uncoverEnt ent m)) j = true := by
        rw [coveredB_setUncover hw m j, if_neg hji]; exact hcj
      rw [hmain j hcj' hrj', getElem?_setUncover hw m j, if_neg hji,
        revealMat_setUncover hw m j]
  · intro j hn
    have hji : j ≠ i := by
      rintro rfl
      exact hn ⟨hcovi, cascReach_seed (List.mem_cons_self j rest)⟩
    have hn' : ¬(coveredB (w.set i (uncoverEnt ent m)) j = true ∧
        cascReach (w.set i (uncoverEnt ent m)) q' j) := by
      rintro ⟨hc', hr'⟩
      refine hn ⟨?_, (hreach j).2 (Or.inr hr')⟩
      rwa [coveredB_setUncover hw m j, if_neg hji] at hc'
    rw [hframe j hn', getElem?_setUncover hw m j, if_neg hji]
  · rw [hhitE]
    by_cases hb : bombB w i = true
    · constructor
      · intro _
        exact Or.inr ⟨i, hcovi, cascReach_seed (List.mem_cons_self i rest), hb⟩
      · intro _
        exact Or.inl (by rw [hhit, hb, Bool.or_true])
    · have hbf : bombB w i = false := by
        revert hb; cases bombB w i <;> simp
      have hhit0 : hit' = hit := by rw [hhit, hbf, Bool.or_false]
      rw [hhit0]
      constructor
      · rintro (hh | ⟨j, hc', hr', hb'⟩)
        · exact Or.inl hh
        · have hji : j ≠ i := by
            rintro rfl
            rw [coveredB_setUncover hw m j, if_pos rfl] at hc'
            cases hc'
          refine Or.inr ⟨j, ?_, (hreach j).2 (Or.inr hr'), ?_⟩
          · rwa [coveredB_setUncover hw m j, if_neg hji] at hc'
          · rwa [bombB_setUncover hw m j] at hb'
      · rintro (hh | ⟨j, hc, hr, hb'⟩)
        · exact Or.inl hh
        · have hji : j ≠ i := by
            rintro rfl
            rw [hb'] at hbf
            cases hbf
          rcases (hreach j).1 hr with hji' | hr'
          · exact absurd hji' hji
          · refine Or.inr ⟨j, ?_, hr', ?_⟩
            · rw [coveredB_setUncover hw m j, if_neg hji]; exact hc
            · rw [bombB_setUncover hw m j]; exact hb'

theorem hreach_stuck {w : List Ent} {i : Nat} {ent : Ent}
    (hw : w[i]? = some ent) (m : MaterialKind)
    (hstuck : expandsB w i = false) (rest : List Nat) (j : Nat) :
    cascReach w (i :: rest) j ↔
      j = i ∨ cascReach (w.set i (uncoverEnt ent m)) rest j := by
  constructor
  · intro hj
    rcases cascReach_cons.1 hj with hrtg | ⟨s, hs, hrtg⟩
    · rcases rtg_setUncover_of_stuck hw m hstuck hrtg with hji | ⟨hii, -⟩
      · exact Or.inl hji
      · exact absurd rfl hii
    · rcases rtg_setUncover_of_stuck hw m hstuck hrtg with hji | ⟨hsi, hset⟩
      · exact Or.inl hji
      · exact Or.inr ⟨s, hs, hset⟩
  · intro hj
    rcases hj with rfl | ⟨s, hs, hset⟩
    · exact cascReach_cons.2 (Or.inl .refl)
    · exact cascReach_cons.2 (Or.inr ⟨s, hs, rtg_setUncover_mono hw m hset⟩)

theorem hreach_expand {w : List Ent} {i : Nat} {ent : Ent}
    (hw : w[i]? = some ent) (hcov : ent.covered = true)
    (hexp : expandsB w i = true) (m : MaterialKind) {rest q' : List Nat}
    (hq : ∀ s, s ∈ q' ↔ s ∈ rest ++ cascadeList w i) (j : Nat) :
    cascReach w (i :: rest) j ↔
      j = i ∨ cascReach (w.set i (uncoverEnt ent m)) q' j := by
  have hc : cascReach (w.set i (uncoverEnt ent m)) q' j ↔
      cascReach (w.set i (uncoverEnt ent m)) rest j ∨
        cascReach (w.set i (uncoverEnt ent m)) (cascadeList w i) j := by
    rw [cascReach_congr hq, cascReach_append]
  constructor
  · intro hj
    rcases cascReach_cons.1 hj with hrtg | ⟨s, hs, hrtg⟩
    · rcases rtg_setUncover_of_expands hw m hrtg with hji | ⟨hii, -⟩ | ⟨a, ha, hset⟩
      · exact Or.inl hji
      · exact absurd rfl hii
      · exact Or.inr (hc.2 (Or.inr ⟨a, ha, hset⟩))
    · rcases rtg_setUncover_of_expands hw m hrtg with hji | ⟨hsi, hset⟩ | ⟨a, ha, hset⟩
      · exact Or.inl hji
      · exact Or.inr (hc.2 (Or.inl ⟨s, hs, hset⟩))
      · exact Or.inr (hc.2 (Or.inr ⟨a, ha, hset⟩))
  · intro hj
    rcases hj with rfl | hr'
    · exact cascReach_cons.2 (Or.inl .refl)
    · rcases hc.1 hr' with ⟨s, hs, hset⟩ | ⟨a, ha, hset⟩
      · exact cascReach_cons.2 (Or.inr ⟨s, hs, rtg_setUncover_mono hw m hset⟩)
      · have hcovi : coveredB w i = true := by rw [coveredB_get hw]; exact hcov
        have hedge : edgeRel w i a := ⟨hcovi, hexp, ha⟩
        exact cascReach_cons.2 (Or.inl (.head hedge (rtg_setUncover_mono hw m hset)))

/-! ## The characterisation of a completed run -/

theorem processF_spec (o : CascadeOrder) (ho : o.Lawful) :
    ∀ (fuel : Nat) (w : List Ent) (q : List Nat) (hit : Bool),
      pmeasure w q < fuel →
      ∃ wEnd hitEnd, processF o fuel w q hit = some (wEnd, hitEnd) ∧
        ProcessOut w q hit wEnd hitEnd := by
  intro fuel
  induction fuel with
  | zero =>
    intro w q hit h
    exact absurd h (Nat.not_lt_zero _)
  | succ fuel ih =>
    intro w q hit hlt
    cases q with
    | nil =>
      refine ⟨w, hit, rfl, rfl, ?_, ?_, ?_⟩
      · intro j _ hr
        exact absurd hr cascReach_nil
      · intro j _
        rfl
      · constructor
        · exact fun h => Or.inl h
        · rintro (h | ⟨j, -, hr, -⟩)
          · exact h
          · exact absurd hr cascReach_nil
    | cons i rest =>
      have hmrest : pmeasure w rest < fuel := by
        have h1 : pmeasure w rest + 1 = pmeasure w (i :: rest) := by
          simp only [pmeasure, List.length_cons]
          omega
        omega
      cases hw : w[i]? with
      | none =>
        have hcov : coveredB w i = false := by simp [coveredB, hw]
        obtain ⟨wE, hE, heq, hPO⟩ := ih w rest hit hmrest
        refine ⟨wE, hE, ?_, ProcessOut_skip hcov hPO⟩
        simp only [processF, hw]
        exact heq
      | some ent =>
        by_cases hcov : ent.covered = true
        · by_cases hbomb : ent.cell.is_bomb = true
          · have hstuck : expandsB w i = false := by
              simp [expandsB, bombB_get hw, hbomb]
            have hm : MaterialKind.bomb = revealMat w i := by
              simp [revealMat, bombB_get hw, hbomb]
            have hmeas :
                pmeasure (w.set i (uncoverEnt ent .bomb)) rest < fuel := by
              have hstep := pmeasure_uncover_lt hw hcov MaterialKind.bomb
                rest rest (Nat.le_add_right _ _)
              omega
            obtain ⟨wE, hE, heq, hPO⟩ := ih _ rest true hmeas
            refine ⟨wE, hE, ?_, ?_⟩
            · have hred : processF o (fuel + 1) w (i :: rest) hit =
                  processF o fuel (w.set i (uncoverEnt ent .bomb)) rest true := by
                simp only [processF, hw]
                rw [if_pos hcov, if_pos hbomb]
              rw [hred]
              exact heq
            · exact ProcessOut_pop hw hcov hm
                (by rw [bombB_get hw, hbomb, Bool.or_true])
                (fun j => hreach_stuck hw _ hstuck rest j) hPO
          · have hbombf : ent.cell.is_bomb = false := by
              revert hbomb; cases ent.cell.is_bomb <;> simp
            by_cases hcnt : cntBombsAt w i = 0
            · have hexp : expandsB w i = true := by
                simp [expandsB, bombB_get hw, hbombf, hcnt]
              have hm :
                  MaterialKind.count (cntBombsAt w i) = revealMat w i := by
                simp [revealMat, bombB_get hw, hbombf]
              have hqlen : (o.qord i rest (cascadeList w i)).length ≤
                  rest.length + w.length := by
                have hperm := ho.qord_perm i rest (cascadeList w i)
                rw [hperm.length_eq, List.length_append]
                exact Nat.add_le_add_left (cascadeList_length_le w i) _
              have hmeas :
                  pmeasure (w.set i (uncoverEnt ent (.count (cntBombsAt w i))))
                    (o.qord i rest (cascadeList w i)) < fuel := by
                have hstep := pmeasure_uncover_lt hw hcov
                  (MaterialKind.count (cntBombsAt w i))
                  rest (o.qord i rest (cascadeList w i)) hqlen
                omega
              obtain ⟨wE, hE, heq, hPO⟩ := ih _ _ hit hmeas
              refine ⟨wE, hE, ?_, ?_⟩
              · have hred : processF o (fuel + 1) w (i :: rest) hit =
                    processF o fuel
                      (w.set i (uncoverEnt ent (.count (cntBombsAt w i))))
                      (o.qord i rest (cascadeList w i)) hit := by
                  simp only [processF, hw]
                  rw [if_pos hcov, if_neg hbomb, if_pos hcnt]
                rw [hred]
                exact heq
              · exact ProcessOut_pop hw hcov hm
                  (by rw [bombB_get hw, hbombf, Bool.or_false])
                  (fun j => hreach_expand hw hcov hexp _
                    (fun s => (ho.qord_perm i rest (cascadeList w i)).mem_iff) j)
                  hPO
            · have hstuck : expandsB w i = false := by
                simp [expandsB, bombB_get hw, hbombf, hcnt]
              have hm :
                  MaterialKind.count (cntBombsAt w i) = revealMat w i := by
                simp [revealMat, bombB_get hw, hbombf]
              have hmeas :
                  pmeasure (w.set i (uncoverEnt ent (.count (cntBombsAt w i))))
                    rest < fuel := by
                have hstep := pmeasure_uncover_lt hw hcov
                  (MaterialKind.count (cntBombsAt w i))
                  rest rest (Nat.le_add_right _ _)
                omega
              obtain ⟨wE, hE, heq, hPO⟩ := ih _ rest hit hmeas
              refine ⟨wE, hE, ?_, ?_⟩
              · have hred : processF o (fuel + 1) w (i :: rest) hit =
                    processF o fuel
                      (w.set i (uncoverEnt ent (.count (cntBombsAt w i))))
                      rest hit := by
                  simp only [processF, hw]
                  rw [if_pos hcov, if_neg hbomb, if_neg hcnt]
                rw [hred]
                exact heq
              · exact ProcessOut_pop hw hcov hm
                  (by rw [bombB_get hw, hbombf, Bool.or_false])
                  (fun j => hreach_stuck hw _ hstuck rest j) hPO
        · have hcovf : coveredB w i = false := by
            rw [coveredB_get hw]
            revert hcov; cases ent.covered <;> simp
          obtain ⟨wE, hE, heq, hPO⟩ := ih w rest hit hmrest
          refine ⟨wE, hE, ?_, ProcessOut_skip hcovf hPO⟩
          have hred : processF o (fuel + 1) w (i :: rest) hit =
              processF o fuel w rest hit := by
            simp only [processF, hw]
            rw [if_neg hcov]
          rw [hred]
          exact heq

theorem process_spec {o : CascadeOrder} (ho : o.Lawful) (w : List Ent)
    (q : List Nat) (hit : Bool) :
    ProcessOut w q hit (process o w q hit).1 (process o w q hit).2 := by
  obtain ⟨wE, hE, heq, hPO⟩ :=
    processF_spec o ho (pmeasure w q + 1) w q hit (Nat.lt_succ_self _)
  rw [process, heq]
  simpa using hPO

theorem ProcessOut_unique {w : List Ent} {q₁ q₂ : List Nat}
    (hq : ∀ s, s ∈ q₁ ↔ s ∈ q₂) {hit : Bool} {w₁ w₂ : List Ent} {h₁ h₂ : Bool}
    (hp₁ : ProcessOut w q₁ hit w₁ h₁) (hp₂ : ProcessOut w q₂ hit w₂ h₂) :
    w₁ = w₂ ∧ h₁ = h₂ := by
  obtain ⟨hl₁, hm₁, hf₁, hh₁⟩ := hp₁
  obtain ⟨hl₂, hm₂, hf₂, hh₂⟩ := hp₂
  have hreach : ∀ j, cascReach w q₁ j ↔ cascReach w q₂ j :=
    fun _ => cascReach_congr hq
  constructor
  · apply List.ext_getElem?
    intro j
    by_cases hcr : coveredB w j = true ∧ cascReach w q₁ j
    · rw [hm₁ j hcr.1 hcr.2, hm₂ j hcr.1 ((hreach j).1 hcr.2)]
    · rw [hf₁ j hcr, hf₂ j (fun hc => hcr ⟨hc.1, (hreach j).2 hc.2⟩)]
  · have hiff : (h₁ = true) ↔ (h₂ = true) := by
      rw [hh₁, hh₂]
      constructor
      · rintro (h | ⟨j, a, b, c⟩)
        · exact Or.inl h
        · exact Or.inr ⟨j, a, (hreach j).1 b, c⟩
      · rintro (h | ⟨j, a, b, c⟩)
        · exact Or.inl h
        · exact Or.inr ⟨j, a, (hreach j).2 b, c⟩
    cases h₁ <;> cases h₂ <;> simp_all

theorem process_order_eq {o₁ o₂ : CascadeOrder} (h₁ : o₁.Lawful)
    (h₂ : o₂.Lawful) {q₁ q₂ : List Nat} (hq : ∀ s, s ∈ q₁ ↔ s ∈ q₂)
    (w : List Ent) (hit : Bool) :
    process o₁ w q₁ hit = process o₂ w q₂ hit := by
  obtain ⟨hw, hh⟩ :=
    ProcessOut_unique hq (process_spec h₁ w q₁ hit) (process_spec h₂ w q₂ hit)
  exact Prod.ext_iff.2 ⟨hw, hh⟩

/-! ## Reduction lemmas for the click handler -/

theorem uncover_oob {o : CascadeOrder} {w : List Ent} {t : Nat}
    (h : w[t]? = none) : uncover o w t = (w, false) := by
  simp only [uncover, count_adjacents, h]

theorem uncover_def_of_get {o : CascadeOrder} {w : List Ent} {t : Nat}
    {ent : Ent} (hw : w[t]? = some ent) :
    uncover o w t =
      if ent.flagged then (w, false)
      else if ent.covered then process o w [t] false
      else if cntBombsAt w t ≤ cntFlaggedAt w t then
        process o w (o.chordOrd t (cascadeList w t)) false
      else (w, false) := by
  simp only [uncover, count_adjacents, hw]

theorem ordId_lawful : ordId.Lawful :=
  ⟨fun _ _ _ => List.Perm.refl _, fun _ _ => List.Perm.refl _,
    fun _ => List.Perm.refl _⟩

theorem ordRev_lawful : ordRev.Lawful :=
  ⟨fun _ rest adds => List.Perm.append_left rest (List.reverse_perm adds),
    fun _ l => List.reverse_perm l, fun l => List.reverse_perm l⟩

theorem coveredB_congr_get {w w' : List Ent} {j : Nat}
    (h : w'[j]? = w[j]?) : coveredB w' j = coveredB w j := by
  unfold coveredB
  rw [h]

theorem flaggedB_congr_get {w w' : List Ent} {j : Nat}
    (h : w'[j]? = w[j]?) : flaggedB w' j = flaggedB w j := by
  unfold flaggedB
  rw [h]

/-! ## Facts about revealing a single covered cell -/

theorem bombB_eq_false_of_rtg {w : List Ent} {c j : Nat}
    (h : Relation.ReflTransGen (edgeRel w) c j) (hne : j ≠ c) :
    bombB w j = false := by
  rcases h.cases_tail with heq | ⟨b, -, hedge⟩
  · exact absurd heq hne
  · exact bombB_eq_false_of_expands hedge.2.1 (mem_cascadeList.1 hedge.2.2).1

theorem uncover_covered_eq {o : CascadeOrder} {w : List Ent} {t : Nat}
    {ent : Ent} (hw : w[t]? = some ent) (hf : ent.flagged = false)
    (hc : ent.covered = true) :
    uncover o w t = process o w [t] false := by
  rw [uncover_def_of_get hw]
  simp [hf, hc]

theorem process_single_bomb {o : CascadeOrder} (ho : o.Lawful) {w : List Ent}
    {t : Nat} {ent : Ent} (hw : w[t]? = some ent) (hc : ent.covered = true)
    (hb : ent.cell.is_bomb = true) :
    process o w [t] false = (w.set t (uncoverEnt ent .bomb), true) := by
  have hcov : coveredB w t = true := by rw [coveredB_get hw]; exact hc
  have hbb : bombB w t = true := by rw [bombB_get hw]; exact hb
  have hstuck : expandsB w t = false := by simp [expandsB, hbb]
  have hrm : revealMat w t = .bomb := by simp [revealMat, hbb]
  have hman : ProcessOut w [t] false (w.set t (uncoverEnt ent .bomb)) true := by
    refine ⟨List.length_set .., ?_, ?_, ?_⟩
    · intro j hcj hrj
      obtain ⟨s, hs, hrtg⟩ := hrj
      have hst := List.mem_singleton.1 hs
      subst hst
      have hjt := rtg_eq_of_not_expands hstuck hrtg
      subst hjt
      rw [getElem?_setUncover hw MaterialKind.bomb j, if_pos rfl, hw, hrm]
      rfl
    · intro j hn
      have hjt : j ≠ t := by
        rintro rfl
        exact hn ⟨hcov, cascReach_seed (List.mem_singleton_self j)⟩
      rw [getElem?_setUncover hw MaterialKind.bomb j, if_neg hjt]
    · constructor
      · intro _
        exact Or.inr ⟨t, hcov, cascReach_seed (List.mem_singleton_self t), hbb⟩
      · intro _
        rfl
  obtain ⟨hw', hh'⟩ :=
    ProcessOut_unique (fun s => Iff.rfl) (process_spec ho w [t] false) hman
  exact Prod.ext_iff.2 ⟨hw', hh'⟩

theorem process_single_safe_hit {o : CascadeOrder} (ho : o.Lawful)
    {w : List Ent} {t : Nat} {ent : Ent} (hw : w[t]? = some ent)
    (hb : ent.cell.is_bomb = false) :
    (process o w [t] false).2 = false := by
  obtain ⟨-, -, -, hhit⟩ := process_spec ho w [t] false
  cases hp : (process o w [t] false).2
  · rfl
  · exfalso
    rcases hhit.1 hp with h | ⟨j, hcj, ⟨s, hs, hrtg⟩, hbj⟩
    · cases h
    · obtain rfl := List.mem_singleton.1 hs
      by_cases hjt : j = s
      · rw [hjt, bombB_get hw, hb] at hbj
        cases hbj
      · rw [bombB_eq_false_of_rtg hrtg hjt] at hbj
        cases hbj

/-! ## No mine hit keeps every covered mine covered -/

theorem process_no_hit_frame {o : CascadeOrder} (ho : o.Lawful)
    {w : List Ent} {q : List Nat}
    (hnohit : (process o w q false).2 = false) {j : Nat}
    (hb : bombB w j = true) :
    (process o w q false).1[j]? = w[j]? := by
  obtain ⟨-, -, hframe, hhit⟩ := process_spec ho w q false
  by_cases hc : coveredB w j = true
  · have hnr : ¬ cascReach w q j := by
      intro hr
      have hcontra := hhit.2 (Or.inr ⟨j, hc, hr, hb⟩)
      rw [hnohit] at hcontra
      cases hcontra
    exact hframe j (fun hp => hnr hp.2)
  · exact hframe j (fun hp => hc hp.1)

/-! ## The chord gesture -/

theorem uncover_chord_eq {o : CascadeOrder} {w : List Ent} {t : Nat}
    {ent : Ent} (hw : w[t]? = some ent) (hf : ent.flagged = false)
    (hc : ent.covered = false) (hge : cntBombsAt w t ≤ cntFlaggedAt w t) :
    uncover o w t = process o w (o.chordOrd t (cascadeList w t)) false := by
  rw [uncover_def_of_get hw]
  simp [hf, hc, hge]

theorem uncover_chord_blocked {o : CascadeOrder} {w : List Ent} {t : Nat}
    {ent : Ent} (hw : w[t]? = some ent) (hf : ent.flagged = false)
    (hc : ent.covered = false) (hlt : cntFlaggedAt w t < cntBombsAt w t) :
    uncover o w t = (w, false) := by
  rw [uncover_def_of_get hw]
  simp [hf, hc, Nat.not_le.2 hlt]

theorem chord_reveals_neighbours {o : CascadeOrder} (ho : o.Lawful)
    {w : List Ent} {t : Nat} {ent : Ent} (hw : w[t]? = some ent)
    (hf : ent.flagged = false) (hc : ent.covered = false)
    (hge : cntBombsAt w t ≤ cntFlaggedAt w t) {j : Nat}
    (hj : j ∈ cascadeList w t) :
    coveredB (uncover o w t).1 j = false := by
  rw [uncover_chord_eq hw hf hc hge]
  obtain ⟨-, hmain, -, -⟩ :=
    process_spec ho w (o.chordOrd t (cascadeList w t)) false
  obtain ⟨-, -, hcj⟩ := mem_cascadeList.1 hj
  have hrj : cascReach w (o.chordOrd t (cascadeList w t)) j :=
    cascReach_seed ((ho.chord_perm t (cascadeList w t)).mem_iff.2 hj)
  obtain ⟨e, he, -⟩ := exists_get_of_coveredB hcj
  have hres := hmain j hcj hrj
  rw [he] at hres
  unfold coveredB
  rw [hres]
  rfl

/-! ## End-of-game mine disclosure -/

theorem reveal_bombs_mine {o : CascadeOrder} (ho : o.Lawful) {w : List Ent}
    {j : Nat} (hb : bombB w j = true) (hc : coveredB w j = true) :
    (reveal_bombs o w)[j]? = (w[j]?).map (fun e => uncoverEnt e .bomb) := by
  unfold reveal_bombs
  obtain ⟨-, hmain, -, -⟩ := process_spec ho w
    (o.bombOrd ((List.range w.length).filter (fun i => coveredB w i && bombB w i)))
    false
  have hlt : j < w.length := by
    obtain ⟨e, he, -⟩ := exists_get_of_coveredB hc
    exact (List.getElem?_eq_some.1 he).1
  have hseed : j ∈ o.bombOrd
      ((List.range w.length).filter (fun i => coveredB w i && bombB w i)) := by
    refine (ho.bomb_perm _).mem_iff.2 (List.mem_filter.2 ⟨List.mem_range.2 hlt, ?_⟩)
    rw [hc, hb]
    rfl
  have hres := hmain j hc (cascReach_seed hseed)
  rw [hres]
  have hrm : revealMat w j = .bomb := by simp [revealMat, hb]
  rw [hrm]

theorem reveal_bombs_frame {o : CascadeOrder} (ho : o.Lawful) {w : List Ent}
    {j : Nat} (h : bombB w j = false ∨ coveredB w j = false) :
    (reveal_bombs o w)[j]? = w[j]? := by
  unfold reveal_bombs
  obtain ⟨-, -, hframe, -⟩ := process_spec ho w
    (o.bombOrd ((List.range w.length).filter (fun i => coveredB w i && bombB w i)))
    false
  refine hframe j ?_
  rintro ⟨hc, s, hs, hrtg⟩
  have hsmem := (ho.bomb_perm _).mem_iff.1 hs
  obtain ⟨-, hsprop⟩ := List.mem_filter.1 hsmem
  have hsb : bombB w s = true := by
    revert hsprop
    cases coveredB w s <;> cases bombB w s <;> simp
  have hstuck : expandsB w s = false := by simp [expandsB, hsb]
  obtain rfl := rtg_eq_of_not_expands hstuck hrtg
  rcases h with hbf | hcf
  · rw [hsb] at hbf
    cases hbf
  · rw [hc] at hcf
    cases hcf

/-! ## The win-check system -/

theorem success_eq_true_iff {w : List Ent}
    (hex : ∃ j, bombB w j = true ∧ coveredB w j = true) :
    success w = true ↔ ∀ j, bombB w j = false → coveredB w j = false := by
  obtain ⟨j0, hb0, hc0⟩ := hex
  obtain ⟨e0, he0, hce0⟩ := exists_get_of_coveredB hc0
  have hne : (w.filter (fun e => e.covered)).length ≠ 0 := by
    intro hz
    have hnil := List.length_eq_zero.1 hz
    have hmem : e0 ∈ w.filter (fun e => e.covered) :=
      List.mem_filter.2 ⟨List.getElem?_mem he0, hce0⟩
    rw [hnil] at hmem
    cases hmem
  unfold success
  rw [Bool.and_eq_true]
  constructor
  · rintro ⟨-, hall⟩ j hbj
    by_cases hcj : coveredB w j = true
    · obtain ⟨e, he, hce⟩ := exists_get_of_coveredB hcj
      have hmem : e ∈ w.filter (fun e => e.covered) :=
        List.mem_filter.2 ⟨List.getElem?_mem he, hce⟩
      have hbe := List.all_eq_true.1 hall e hmem
      rw [bombB_get he] at hbj
      rw [hbj] at hbe
      cases hbe
    · revert hcj
      cases coveredB w j <;> simp
  · intro hwin
    refine ⟨by simpa using hne, ?_⟩
    rw [List.all_eq_true]
    intro e hmem
    obtain ⟨hew, hec⟩ := List.mem_filter.1 hmem
    obtain ⟨i, hi⟩ := List.mem_iff_getElem?.1 hew
    by_cases hbi : bombB w i = true
    · rw [bombB_get hi] at hbi
      exact hbi
    · have hbi' : bombB w i = false := by
        revert hbi; cases bombB w i <;> simp
      have hci := hwin i hbi'
      rw [coveredB_get hi] at hci
      rw [hec] at hci
      cases hci

/-! ## Flag toggling -/

theorem toggle_flag_oob {w : List Ent} {t : Nat} (h : w[t]? = none) :
    toggle_flag w t = w := by
  simp [toggle_flag, h]

theorem toggle_flag_uncovered {w : List Ent} {t : Nat} {ent : Ent}
    (hw : w[t]? = some ent) (hc : ent.covered = false) :
    toggle_flag w t = w := by
  simp [toggle_flag, hw, hc]

theorem toggle_flag_covered {w : List Ent} {t : Nat} {ent : Ent}
    (hw : w[t]? = some ent) (hc : ent.covered = true) (hf : ent.flagged = false) :
    toggle_flag w t =
      w.set t { ent with material := .flagged, flagged := true } := by
  simp [toggle_flag, hw, hc, hf]

theorem toggle_flag_flagged {w : List Ent} {t : Nat} {ent : Ent}
    (hw : w[t]? = some ent) (hc : ent.covered = true) (hf : ent.flagged = true) :
    toggle_flag w t =
      w.set t { ent with material := .covered, flagged := false } := by
  simp [toggle_flag, hw, hc, hf]

theorem toggle_flag_frame {w : List Ent} {t j : Nat} (hne : j ≠ t) :
    (toggle_flag w t)[j]? = w[j]? := by
  unfold toggle_flag
  cases hw : w[t]? with
  | none => rfl
  | some ent =>
    cases hcov : ent.covered <;> cases hfl : ent.flagged <;>
      simp [hcov, hfl, List.getElem?_set_ne (Ne.symm hne)]

theorem toggle_flag_twice {w : List Ent} {t : Nat} {ent : Ent}
    (hw : w[t]? = some ent) (hc : ent.covered = true) (hf : ent.flagged = false) :
    toggle_flag (toggle_flag w t) t =
      w.set t { ent with material := .covered, flagged := false } := by
  have hlt : t < w.length := (List.getElem?_eq_some.1 hw).1
  rw [toggle_flag_covered hw hc hf]
  have hw2 : (w.set t { ent with material := .flagged, flagged := true })[t]? =
      some { ent with material := .flagged, flagged := true } :=
    List.getElem?_set_self (by simpa using hlt)
  rw [toggle_flag_flagged hw2 hc rfl, List.set_set]

/-! ## Board generation -/

theorem countP_range_lt (k n : Nat) :
    (List.range n).countP (fun idx => decide (idx < k)) = min k n := by
  induction n with
  | zero => simp
  | succ n ih =>
    rw [List.range_succ, List.countP_append, ih, List.countP_singleton]
    by_cases h : n < k
    · rw [if_pos (decide_eq_true h)]
      omega
    · rw [if_neg (by simpa using h)]
      omega

theorem initialBombs_count (columns rows bombs : Int) :
    (initialBombs columns rows bombs).count true =
      min bombs.toNat (columns * rows).toNat := by
  unfold initialBombs
  rw [List.count_eq_countP, List.countP_map]
  have hcongr :
      List.countP
        ((fun x => x == true) ∘ fun (idx : Nat) => decide ((idx : Int) < bombs))
        (List.range (columns * rows).toNat) =
      List.countP (fun idx => decide (idx < bombs.toNat))
        (List.range (columns * rows).toNat) :=
    List.countP_congr (fun idx _ => by
      simp only [Function.comp]
      constructor
      · intro h
        have h' : (idx : Int) < bombs := by simpa using h
        exact decide_eq_true (Int.lt_toNat.2 h')
      · intro h
        have h' : idx < bombs.toNat := of_decide_eq_true h
        simp [Int.lt_toNat.1 h'])
  rw [hcongr]
  exact countP_range_lt bombs.toNat (columns * rows).toNat

theorem boardCells_length (columns : Int) (bs : List Bool) :
    (boardCells columns bs).length = bs.length := by
  simp [boardCells, List.enum_eq_enumFrom, List.enumFrom_length]

theorem boardCells_getElem? (columns : Int) (bs : List Bool) (i : Nat) :
    (boardCells columns bs)[i]? = (bs[i]?).map (fun b =>
      { x := (i : Int) % columns, y := (i : Int) / columns, is_bomb := b }) := by
  unfold boardCells
  rw [List.getElem?_map, List.enum_eq_enumFrom, List.getElem?_enumFrom]
  cases bs[i]? <;> simp

theorem boardCells_map_bomb (columns : Int) (bs : List Bool) :
    (boardCells columns bs).map (fun c => c.is_bomb) = bs := by
  unfold boardCells
  rw [List.map_map, List.enum_eq_enumFrom]
  have hcomp : ((fun c : Cell => c.is_bomb) ∘ (fun p : Nat × Bool =>
      { x := (p.1 : Int) % columns, y := (p.1 : Int) / columns,
        is_bomb := p.2 })) = Prod.snd := by
    funext p
    rfl
  rw [hcomp, List.enumFrom_map_snd]

theorem boardCells_bomb_count (columns : Int) (bs : List Bool) :
    ((boardCells columns bs).filter (fun c => c.is_bomb)).length =
      bs.count true := by
  rw [← List.countP_eq_length_filter]
  have h1 : List.countP (fun c => c.is_bomb) (boardCells columns bs) =
      List.countP (fun b => b) ((boardCells columns bs).map (fun c => c.is_bomb)) := by
    rw [List.countP_map]
    rfl
  rw [h1, boardCells_map_bomb, List.count_eq_countP]
  exact List.countP_congr (fun b _ => by cases b <;> simp)

theorem spawnWorld_getElem? (cells : List Cell) (i : Nat) :
    (spawnWorld cells)[i]? = (cells[i]?).map (fun c =>
      { cell := c, material := .covered, covered := true, flagged := false }) := by
  simp [spawnWorld]

theorem spawnWorld_length (cells : List Cell) :
    (spawnWorld cells).length = cells.length := by
  simp [spawnWorld]

theorem bool_count_false_add (l : List Bool) :
    l.count false + l.count true = l.length := by
  induction l with
  | nil => rfl
  | cons b l ih =>
    cases b <;> simp [List.count_cons] <;> omega

theorem bool_perm_of_count {l₁ l₂ : List Bool}
    (hlen : l₁.length = l₂.length) (hcount : l₁.count true = l₂.count true) :
    List.Perm l₁ l₂ := by
  rw [List.perm_iff_count]
  intro b
  cases b
  · have h1 := bool_count_false_add l₁
    have h2 := bool_count_false_add l₂
    omega
  · exact hcount

/-! ## Geometry of the canonical board layout -/

theorem adjacentTo_iff {t c : Cell} :
    adjacentTo t c = true ↔
      (t.x - 1 ≤ c.x ∧ c.x ≤ t.x + 1 ∧ t.y - 1 ≤ c.y ∧ c.y ≤ t.y + 1 ∧
        ¬(c.x = t.x ∧ c.y = t.y)) := by
  simp [adjacentTo, and_assoc]
  tauto

theorem canonical_getElem {W : Int} {bs : List Bool} {j : Nat}
    (hj : j < bs.length) :
    (spawnWorld (boardCells W bs))[j]? = some
      { cell := { x := (j : Int) % W, y := (j : Int) / W, is_bomb := bs[j] },
        material := .covered, covered := true, flagged := false } := by
  rw [spawnWorld_getElem?, boardCells_getElem?, List.getElem?_eq_getElem hj]
  rfl

theorem canonical_length {W : Int} {bs : List Bool} :
    (spawnWorld (boardCells W bs)).length = bs.length := by
  rw [spawnWorld_length, boardCells_length]

theorem canonical_adjB {W : Int} {bs : List Bool} {t j : Nat}
    (ht : t < bs.length) (hj : j < bs.length) :
    adjB (spawnWorld (boardCells W bs)) t j =
      adjacentTo { x := (t : Int) % W, y := (t : Int) / W, is_bomb := bs[t] }
        { x := (j : Int) % W, y := (j : Int) / W, is_bomb := bs[j] } := by
  unfold adjB
  rw [canonical_getElem ht, canonical_getElem hj]

theorem canonical_adjIdxs_iff {W : Int} {bs : List Bool} {t j : Nat}
    (ht : t < bs.length) :
    j ∈ adjIdxs (spawnWorld (boardCells W bs)) t ↔
      j < bs.length ∧
      |(j : Int) % W - (t : Int) % W| ≤ 1 ∧
      |(j : Int) / W - (t : Int) / W| ≤ 1 ∧
      ¬((j : Int) % W = (t : Int) % W ∧ (j : Int) / W = (t : Int) / W) := by
  rw [mem_adjIdxs, canonical_length]
  constructor
  · rintro ⟨hj, hadj⟩
    rw [canonical_adjB ht hj] at hadj
    obtain ⟨h1, h2, h3, h4, h5⟩ := adjacentTo_iff.1 hadj
    simp only at h1 h2 h3 h4 h5
    refine ⟨hj, ?_, ?_, fun hc => h5 ⟨hc.1, hc.2⟩⟩
    · rw [abs_le]
      omega
    · rw [abs_le]
      omega
  · rintro ⟨hj, h1, h2, h3⟩
    rw [abs_le] at h1 h2
    refine ⟨hj, ?_⟩
    rw [canonical_adjB ht hj]
    refine adjacentTo_iff.2 ?_
    simp only
    exact ⟨by omega, by omega, by omega, by omega, fun hc => h3 ⟨hc.1, hc.2⟩⟩

theorem index_coords_bounds {W H : Int} (hW : 0 < W) (hH : 0 < H) {j : Nat}
    (hj : j < (W * H).toNat) :
    0 ≤ (j : Int) % W ∧ (j : Int) % W < W ∧
    0 ≤ (j : Int) / W ∧ (j : Int) / W < H := by
  have hjlt : (j : Int) < W * H := Int.lt_toNat.1 hj
  refine ⟨Int.emod_nonneg _ (ne_of_gt hW), Int.emod_lt_of_pos _ hW,
    Int.ediv_nonneg (Int.natCast_nonneg j) hW.le, ?_⟩
  rw [Int.ediv_lt_iff_lt_mul hW, mul_comm H W]
  exact hjlt

theorem coords_to_index {W H : Int} (hW : 0 < W) (hH : 0 < H)
    {x' y' : Int} (hx0 : 0 ≤ x') (hxW : x' < W) (hy0 : 0 ≤ y') (hyH : y' < H) :
    (((y' * W + x').toNat : Nat) : Int) = y' * W + x' ∧
    (y' * W + x').toNat < (W * H).toNat ∧
    (((y' * W + x').toNat : Nat) : Int) % W = x' ∧
    (((y' * W + x').toNat : Nat) : Int) / W = y' := by
  have hWnn : (0 : Int) ≤ y' * W := mul_nonneg hy0 hW.le
  have hnn : 0 ≤ y' * W + x' := by omega
  have hcast : (((y' * W + x').toNat : Nat) : Int) = y' * W + x' :=
    Int.toNat_of_nonneg hnn
  have hlt : y' * W + x' < W * H := by
    have h1 : y' + 1 ≤ H := by omega
    have h2 : (y' + 1) * W ≤ H * W := mul_le_mul_of_nonneg_right h1 hW.le
    calc y' * W + x' < y' * W + W := by omega
      _ = (y' + 1) * W := by ring
      _ ≤ H * W := h2
      _ = W * H := mul_comm H W
  refine ⟨hcast, (Int.toNat_lt_toNat (mul_pos hW hH)).2 hlt, ?_, ?_⟩
  · rw [hcast, add_comm, mul_comm y' W, Int.add_mul_emod_self_left]
    exact Int.emod_eq_of_lt hx0 hxW
  · rw [hcast, add_comm, Int.add_mul_ediv_right _ _ (ne_of_gt hW),
      Int.ediv_eq_zero_of_lt hx0 hxW, zero_add]

theorem index_eq_of_coords {W : Int} (hW : 0 < W) {j k : Nat}
    (hx : (j : Int) % W = (k : Int) % W) (hy : (j : Int) / W = (k : Int) / W) :
    j = k := by
  have hj := Int.ediv_add_emod (j : Int) W
  have hk := Int.ediv_add_emod (k : Int) W
  have hcast : (j : Int) = (k : Int) := by
    rw [← hj, ← hk, hx, hy]
  exact Int.natCast_inj.1 hcast

theorem canonical_adjIdxs_card {W H : Int} (hW : 0 < W) (hH : 0 < H)
    {bs : List Bool} (hbs : bs.length = (W * H).toNat) (t : Nat) :
    (adjIdxs (spawnWorld (boardCells W bs)) t).length ≤ 8 := by
  by_cases ht : t < bs.length
  · set l := adjIdxs (spawnWorld (boardCells W bs)) t with hldef
    set f : Nat → Int × Int := fun j =>
      ((j : Int) % W - (t : Int) % W, (j : Int) / W - (t : Int) / W) with hfdef
    set S : Finset (Int × Int) :=
      {(-1, -1), (-1, 0), (-1, 1), (0, -1), (0, 1), (1, -1), (1, 0), (1, 1)}
      with hSdef
    have hnodup : l.Nodup := List.Nodup.filter _ (List.nodup_range _)
    have hinj : ∀ a ∈ l, ∀ b ∈ l, f a = f b → a = b := by
      intro a _ b _ hab
      have hab' : ((a : Int) % W - (t : Int) % W, (a : Int) / W - (t : Int) / W) =
          ((b : Int) % W - (t : Int) % W, (b : Int) / W - (t : Int) / W) := hab
      rw [Prod.mk.injEq] at hab'
      obtain ⟨h1, h2⟩ := hab'
      exact index_eq_of_coords hW (by omega) (by omega)
    have hmnodup := hnodup.map_on hinj
    have hsub : ∀ p ∈ l.map f, p ∈ S := by
      intro p hp
      obtain ⟨j, hj, hpj⟩ := List.mem_map.1 hp
      obtain ⟨-, hx, hy, hne⟩ := (canonical_adjIdxs_iff ht).1 hj
      rw [abs_le] at hx hy
      obtain ⟨p1, p2⟩ := p
      have hab' : ((j : Int) % W - (t : Int) % W, (j : Int) / W - (t : Int) / W) =
          (p1, p2) := hpj
      rw [Prod.mk.injEq] at hab'
      obtain ⟨hp1, hp2⟩ := hab'
      have hdx : p1 = -1 ∨ p1 = 0 ∨ p1 = 1 := by omega
      have hdy : p2 = -1 ∨ p2 = 0 ∨ p2 = 1 := by omega
      have hne' : ¬(p1 = 0 ∧ p2 = 0) := by
        rintro ⟨rfl, rfl⟩
        exact hne ⟨by omega, by omega⟩
      clear hp hpj hj hx hy hne hp1 hp2
      rw [hSdef]
      rcases hdx with rfl | rfl | rfl <;> rcases hdy with rfl | rfl | rfl
      · decide
      · decide
      · decide
      · decide
      · exact absurd ⟨rfl, rfl⟩ hne'
      · decide
      · decide
      · decide
      · decide
    have hsub' : (l.map f).toFinset ⊆ S :=
      fun p hp => hsub p (List.mem_toFinset.1 hp)
    have hcard : S.card ≤ 8 := by rw [hSdef]; decide
    calc l.length = (l.map f).length := (List.length_map l f).symm
      _ = (l.map f).toFinset.card := (List.toFinset_card_of_nodup hmnodup).symm
      _ ≤ S.card := Finset.card_le_card hsub'
      _ ≤ 8 := hcard
  · have hnone : (spawnWorld (boardCells W bs))[t]? = none := by
      rw [spawnWorld_getElem?, boardCells_getElem?,
        List.getElem?_eq_none (by omega)]
      rfl
    have hnil : adjIdxs (spawnWorld (boardCells W bs)) t = [] := by
      unfold adjIdxs
      rw [List.filter_eq_nil_iff]
      intro a _
      simp [adjB, hnone]
    rw [hnil]
    simp

/-! ## Auxiliary boolean helper -/

theorem bool_eq_false {b : Bool} (h : ¬b = true) : b = false := by
  revert h
  cases b <;> simp

/-! ## Static cell data survives any run -/

theorem process_bombB {o : CascadeOrder} (ho : o.Lawful) (w : List Ent)
    (q : List Nat) (hit : Bool) (j : Nat) :
    bombB (process o w q hit).1 j = bombB w j := by
  obtain ⟨-, hmain, hframe, -⟩ := process_spec ho w q hit
  unfold bombB
  by_cases hcr : coveredB w j = true ∧ cascReach w q j
  · rw [hmain j hcr.1 hcr.2]
    cases w[j]? <;> rfl
  · rw [hframe j hcr]

theorem uncover_bombB {o : CascadeOrder} (ho : o.Lawful) (w : List Ent)
    (t j : Nat) : bombB (uncover o w t).1 j = bombB w j := by
  cases hw : w[t]? with
  | none => rw [uncover_oob hw]
  | some ent =>
    by_cases hf : ent.flagged = true
    · rw [show uncover o w t = (w, false) by
        rw [uncover_def_of_get hw]; simp [hf]]
    · have hf' := bool_eq_false hf
      by_cases hc : ent.covered = true
      · rw [uncover_covered_eq hw hf' hc]
        exact process_bombB ho w [t] false j
      · have hc' := bool_eq_false hc
        by_cases hge : cntBombsAt w t ≤ cntFlaggedAt w t
        · rw [uncover_chord_eq hw hf' hc' hge]
          exact process_bombB ho w _ false j
        · rw [uncover_chord_blocked hw hf' hc' (Nat.not_le.1 hge)]

theorem uncover_no_hit_bomb_frame {o : CascadeOrder} (ho : o.Lawful)
    {w : List Ent} {t : Nat} (hnohit : (uncover o w t).2 = false) {j : Nat}
    (hb : bombB w j = true) : (uncover o w t).1[j]? = w[j]? := by
  cases hw : w[t]? with
  | none => rw [uncover_oob hw]
  | some ent =>
    by_cases hf : ent.flagged = true
    · rw [show uncover o w t = (w, false) by
        rw [uncover_def_of_get hw]; simp [hf]]
    · have hf' := bool_eq_false hf
      by_cases hc : ent.covered = true
      · rw [uncover_covered_eq hw hf' hc] at hnohit ⊢
        exact process_no_hit_frame ho hnohit hb
      · have hc' := bool_eq_false hc
        by_cases hge : cntBombsAt w t ≤ cntFlaggedAt w t
        · rw [uncover_chord_eq hw hf' hc' hge] at hnohit ⊢
          exact process_no_hit_frame ho hnohit hb
        · rw [uncover_chord_blocked hw hf' hc' (Nat.not_le.1 hge)]

/-! ## Order independence, lifted through the session layer -/

theorem uncover_order_eq {o₁ o₂ : CascadeOrder} (h₁ : o₁.Lawful)
    (h₂ : o₂.Lawful) (w : List Ent) (t : Nat) :
    uncover o₁ w t = uncover o₂ w t := by
  cases hw : w[t]? with
  | none => rw [uncover_oob hw, uncover_oob hw]
  | some ent =>
    rw [uncover_def_of_get hw, uncover_def_of_get hw]
    split_ifs with hf hc hge
    · rfl
    · exact process_order_eq h₁ h₂ (fun s => Iff.rfl) w false
    · exact process_order_eq h₁ h₂ (fun s =>
        (h₁.chord_perm t (cascadeList w t)).mem_iff.trans
          (h₂.chord_perm t (cascadeList w t)).mem_iff.symm) w false
    · rfl

theorem reveal_bombs_order_eq {o₁ o₂ : CascadeOrder} (h₁ : o₁.Lawful)
    (h₂ : o₂.Lawful) (w : List Ent) :
    reveal_bombs o₁ w = reveal_bombs o₂ w := by
  unfold reveal_bombs
  rw [process_order_eq h₁ h₂ (fun s =>
    (h₁.bomb_perm _).mem_iff.trans (h₂.bomb_perm _).mem_iff.symm) w false]

theorem sessionStep_order_eq {o₁ o₂ : CascadeOrder} (h₁ : o₁.Lawful)
    (h₂ : o₂.Lawful) (s : Session) (c : Cmd) :
    sessionStep o₁ s c = sessionStep o₂ s c := by
  obtain ⟨w, st⟩ := s
  cases st with
  | Prepare => rfl
  | Over => rfl
  | Running =>
    cases c with
    | reveal t =>
      simp only [sessionStep]
      rw [uncover_order_eq h₁ h₂ w t]
      split_ifs with hhit hsucc
      · rw [reveal_bombs_order_eq h₁ h₂]
      · rw [reveal_bombs_order_eq h₁ h₂]
      · rfl
    | toggleFlag t =>
      simp only [sessionStep]
      split_ifs with hsucc
      · rw [reveal_bombs_order_eq h₁ h₂]
      · rfl

theorem runSession_order_eq {o₁ o₂ : CascadeOrder} (h₁ : o₁.Lawful)
    (h₂ : o₂.Lawful) (cs : List Cmd) (s : Session) :
    runSession o₁ s cs = runSession o₂ s cs := by
  induction cs generalizing s with
  | nil => rfl
  | cons c cs ih =>
    simp only [runSession, List.foldl_cons]
    rw [sessionStep_order_eq h₁ h₂ s c]
    exact ih (sessionStep o₂ s c)

/-! ## Claim theorems -/

/-- C3, counterexample to the claim as stated.  On the mine-free one-row
board `wRow` the connected zero-adjacency region of cell 0 contains all three
cells (all have zero adjacent mines, cell 1 is adjacent to cell 0 and cell 2
to cell 1), cell 0 is covered, unflagged and not a mine, yet after revealing
cell 0 the cell 2 of that region is still covered: the player's flag on cell
1 blocks the cascade, so the entire zero-region does not become revealed. -/
theorem C3_cascade_counterexample :
    cntBombsAt wRow 0 = 0 ∧ cntBombsAt wRow 1 = 0 ∧ cntBombsAt wRow 2 = 0 ∧
    bombB wRow 0 = false ∧ bombB wRow 1 = false ∧ bombB wRow 2 = false ∧
    coveredB wRow 0 = true ∧ flaggedB wRow 0 = false ∧
    adjB wRow 0 1 = true ∧ adjB wRow 1 2 = true ∧
    coveredB (uncover ordId wRow 0).1 2 = true := by
  decide

/-- C3, amended.  Revealing a covered, unflagged, non-mine cell `c` sets it
to `Revealed(mineCount(c))`; when `mineCount(c) = 0` the cascade reveals
exactly the closure of `c` under the step "covered, unflagged neighbour of a
zero-count covered cell already in the closure" (`cascReach`): every covered
cell in the closure becomes revealed with its own count, every other cell is
unchanged, and when `mineCount(c) ≠ 0` the closure is just `{c}`, so only `c`
changes.  Flagged cells are never revealed and block the cascade. -/
theorem C3_cascade_amended {w : List Ent} {c : Nat} {ent : Ent}
    (hw : w[c]? = some ent) (hcov : ent.covered = true)
    (hf : ent.flagged = false) (hm : ent.cell.is_bomb = false) :
    (uncover ordId w c).1[c]? =
      some (uncoverEnt ent (.count (cntBombsAt w c))) ∧
    (∀ j, coveredB w j = true → cascReach w [c] j →
      (uncover ordId w c).1[j]? =
        (w[j]?).map (fun e => uncoverEnt e (revealMat w j))) ∧
    (∀ j, ¬(coveredB w j = true ∧ cascReach w [c] j) →
      (uncover ordId w c).1[j]? = w[j]?) ∧
    (cntBombsAt w c ≠ 0 → ∀ j, cascReach w [c] j ↔ j = c) := by
  rw [uncover_covered_eq hw hf hcov]
  obtain ⟨-, hmain, hframe, -⟩ := process_spec ordId_lawful w [c] false
  have hcb : coveredB w c = true := by rw [coveredB_get hw]; exact hcov
  refine ⟨?_, hmain, hframe, ?_⟩
  · have hres := hmain c hcb (cascReach_seed (List.mem_singleton_self c))
    rw [hres, hw]
    have hrm : revealMat w c = .count (cntBombsAt w c) := by
      simp [revealMat, bombB_get hw, hm]
    rw [hrm]
    rfl
  · intro hcnt j
    have hbeq : (cntBombsAt w c == 0) = false := by
      simp [hcnt]
    have hstuck : expandsB w c = false := by
      simp [expandsB, hbeq]
    constructor
    · rintro ⟨s, hs, hrtg⟩
      have hsc := List.mem_singleton.1 hs
      subst hsc
      exact rtg_eq_of_not_expands hstuck hrtg
    · rintro rfl
      exact cascReach_seed (List.mem_singleton_self j)

/-- C3, witness: on the mine-free two-by-two board, revealing cell 0 marks it
`Revealed(0)`. -/
theorem C3_cascade_amended_witness :
    (uncover ordId wOpen 0).1[0]? =
      some (uncoverEnt
        { cell := { x := 0, y := 0, is_bomb := false },
          material := .covered, covered := true, flagged := false }
        (.count (cntBombsAt wOpen 0))) :=
  (C3_cascade_amended (by decide) (by decide) (by decide) (by decide)).1

/-- C4: invoking reveal on an already revealed, unflagged cell `t` is the
chord gesture.  When the number of flagged neighbours is at least the number
of mine neighbours, every covered, unflagged neighbour of `t` is uncovered by
the one command; when the flagged count is strictly below the mine count,
nothing changes at all.  No hypothesis relates the flags to the actual mine
positions: the threshold is purely a count comparison. -/
theorem C4_chord {w : List Ent} {t : Nat} {ent : Ent}
    (hw : w[t]? = some ent) (hrev : ent.covered = false)
    (hnf : ent.flagged = false) :
    (cntBombsAt w t ≤ cntFlaggedAt w t →
      ∀ j ∈ cascadeList w t, coveredB (uncover ordId w t).1 j = false) ∧
    (cntFlaggedAt w t < cntBombsAt w t → uncover ordId w t = (w, false)) :=
  ⟨fun hge j hj => chord_reveals_neighbours ordId_lawful hw hnf hrev hge hj,
   fun hlt => uncover_chord_blocked hw hnf hrev hlt⟩

/-- C4, witness: on `wChord` (mine flagged, count satisfied) chording cell 0
uncovers its covered unflagged neighbour cell 1. -/
theorem C4_chord_witness :
    coveredB (uncover ordId wChord 0).1 1 = false :=
  (@C4_chord wChord 0
    { cell := { x := 0, y := 0, is_bomb := false },
      material := .count 1, covered := false, flagged := false }
    (by decide) (by decide) (by decide)).1 (by decide) 1 (by decide)

/-- C7: toggling a flag is a no-op on an uncovered (revealed or exploded)
cell; on a covered unflagged cell it flags the cell, on a flagged cell it
unflags it, in both cases changing no other cell; toggling twice on a
covered unflagged cell leaves the cell covered and unflagged with the
covered material. -/
theorem C7_toggle_flag {w : List Ent} {t : Nat} {ent : Ent}
    (hw : w[t]? = some ent) :
    (ent.covered = false → toggle_flag w t = w) ∧
    (ent.covered = true → ent.flagged = false →
      toggle_flag w t =
        w.set t { ent with material := .flagged, flagged := true }) ∧
    (ent.covered = true → ent.flagged = true →
      toggle_flag w t =
        w.set t { ent with material := .covered, flagged := false }) ∧
    (∀ j, j ≠ t → (toggle_flag w t)[j]? = w[j]?) ∧
    (ent.covered = true → ent.flagged = false →
      toggle_flag (toggle_flag w t) t =
        w.set t { ent with material := .covered, flagged := false }) :=
  ⟨fun hc => toggle_flag_uncovered hw hc,
   fun hc hf => toggle_flag_covered hw hc hf,
   fun hc hf => toggle_flag_flagged hw hc hf,
   fun _ hne => toggle_flag_frame hne,
   fun hc hf => toggle_flag_twice hw hc hf⟩

/-- C7, witness: on the two-cell column board, toggling cell 0 twice
restores the covered, unflagged state, and a single toggle flags only
cell 0. -/
theorem C7_toggle_flag_witness :
    toggle_flag wTog 0 = wTog.set 0
      { cell := { x := 0, y := 0, is_bomb := false },
        material := .flagged, covered := true, flagged := true } ∧
    (toggle_flag wTog 0)[1]? = wTog[1]? ∧
    toggle_flag (toggle_flag wTog 0) 0 = wTog.set 0
      { cell := { x := 0, y := 0, is_bomb := false },
        material := .covered, covered := true, flagged := false } :=
  ⟨(@C7_toggle_flag wTog 0
      { cell := { x := 0, y := 0, is_bomb := false },
        material := .covered, covered := true, flagged := false }
      (by decide)).2.1 (by decide) (by decide),
   (@C7_toggle_flag wTog 0
      { cell := { x := 0, y := 0, is_bomb := false },
        material := .covered, covered := true, flagged := false }
      (by decide)).2.2.2.1 1 (by decide),
   (@C7_toggle_flag wTog 0
      { cell := { x := 0, y := 0, is_bomb := false },
        material := .covered, covered := true, flagged := false }
      (by decide)).2.2.2.2 (by decide) (by decide)⟩

/-- C8: entering the ended phase runs `reveal_bombs`: every mine that is
still covered (flagged or not, since flagged cells keep their `Covered`
marker) is force-revealed with the mine material, and the state of every
non-mine cell is left untouched by the disclosure. -/
theorem C8_loss_disclosure (w : List Ent) (j : Nat) :
    (bombB w j = true → coveredB w j = true →
      (reveal_bombs ordId w)[j]? =
        (w[j]?).map (fun e => uncoverEnt e .bomb)) ∧
    (bombB w j = false → (reveal_bombs ordId w)[j]? = w[j]?) :=
  ⟨fun hb hc => reveal_bombs_mine ordId_lawful hb hc,
   fun hb => reveal_bombs_frame ordId_lawful (Or.inl hb)⟩

/-- C8, witness: on the two-cell board `wBombs` the covered mine at cell 0
is disclosed as a mine and the safe cell 1 is untouched. -/
theorem C8_loss_disclosure_witness :
    (reveal_bombs ordId wBombs)[0]? =
      (wBombs[0]?).map (fun e => uncoverEnt e .bomb) ∧
    (reveal_bombs ordId wBombs)[1]? = wBombs[1]? :=
  ⟨(C8_loss_disclosure wBombs 0).1 (by decide) (by decide),
   (C8_loss_disclosure wBombs 1).2 (by decide)⟩

/-- C9: for a fixed board and a fixed command sequence, the resulting
session (the final state of every cell together with the phase) is the same
under any two lawful queue disciplines, i.e. the outcome does not depend on
the order in which neighbours are processed inside cascades, chords and the
end-of-game disclosure. -/
theorem C9_order_independence {o₁ o₂ : CascadeOrder} (h₁ : o₁.Lawful)
    (h₂ : o₂.Lawful) (s : Session) (cs : List Cmd) :
    runSession o₁ s cs = runSession o₂ s cs :=
  runSession_order_eq h₁ h₂ cs s

/-- C9, witness: the first-in-first-out discipline and the batch-reversing
discipline produce identical runs on the two-by-two board. -/
theorem C9_order_independence_witness :
    runSession ordId { world := wOpen, state := .Running }
        [Cmd.reveal 0, Cmd.toggleFlag 1] =
      runSession ordRev { world := wOpen, state := .Running }
        [Cmd.reveal 0, Cmd.toggleFlag 1] :=
  C9_order_independence ordId_lawful ordRev_lawful
    { world := wOpen, state := .Running } [Cmd.reveal 0, Cmd.toggleFlag 1]

theorem initialBombs_length (columns rows bombs : Int) :
    (initialBombs columns rows bombs).length = (columns * rows).toNat := by
  simp [initialBombs]

theorem bombB_imp_coveredB_of_forall_lt {w : List Ent}
    (h : ∀ j, j < w.length → bombB w j = true → coveredB w j = true) :
    ∀ j, bombB w j = true → coveredB w j = true := by
  intro j hb
  obtain ⟨e, he, -⟩ := exists_get_of_bombB hb
  exact h j (List.getElem?_eq_some.1 he).1 hb

/-- C1: while the session is Running, a reveal or chord command that
completes without a mine hit moves the session to the terminal phase exactly
when every non-mine cell of the resulting board is uncovered — equivalently,
when every cell still covered (flagged cells included) is a mine.  The first
two hypotheses are the Playing-phase invariants of the real game (mines have
not been uncovered, and the fixed configuration places at least one mine),
under which the `count > 0` guard of the `success` system is automatic. -/
theorem C1_win_transition {s : Session} {t : Nat}
    (hrun : s.state = GameState.Running)
    (hbombs : ∀ j, bombB s.world j = true → coveredB s.world j = true)
    (hex : ∃ j, bombB s.world j = true)
    (hnohit : (uncover ordId s.world t).2 = false) :
    ((sessionStep ordId s (Cmd.reveal t)).state = GameState.Over ↔
      ∀ j, bombB (uncover ordId s.world t).1 j = false →
        coveredB (uncover ordId s.world t).1 j = false) := by
  obtain ⟨w, st⟩ := s
  simp only at hrun hbombs hex hnohit
  subst hrun
  have hpres : ∀ j, bombB w j = true → (uncover ordId w t).1[j]? = w[j]? :=
    fun j hb => uncover_no_hit_bomb_frame ordId_lawful hnohit hb
  have hbombsr : ∀ j, bombB (uncover ordId w t).1 j = true →
      coveredB (uncover ordId w t).1 j = true := by
    intro j hb'
    have hbw : bombB w j = true := by
      rw [← uncover_bombB ordId_lawful w t j]
      exact hb'
    rw [coveredB_congr_get (hpres j hbw)]
    exact hbombs j hbw
  have hexr : ∃ j, bombB (uncover ordId w t).1 j = true ∧
      coveredB (uncover ordId w t).1 j = true := by
    obtain ⟨j, hb⟩ := hex
    have hb' : bombB (uncover ordId w t).1 j = true := by
      rw [uncover_bombB ordId_lawful w t j]
      exact hb
    exact ⟨j, hb', hbombsr j hb'⟩
  have hiff := success_eq_true_iff hexr
  simp only [sessionStep, hnohit, Bool.false_eq_true, if_false]
  by_cases hs : success (uncover ordId w t).1 = true
  · rw [if_pos hs]
    constructor
    · intro _
      exact hiff.1 hs
    · intro _
      rfl
  · rw [if_neg hs]
    constructor
    · intro h
      exact absurd h (by simp)
    · intro hwin
      exact absurd (hiff.2 hwin) hs

/-- C1, witness: on the two-cell board with the mine on the right, revealing
the left cell ends the session and indeed every non-mine cell is then
uncovered. -/
theorem C1_win_transition_witness :
    (sessionStep ordId { world := wWin, state := .Running }
        (Cmd.reveal 0)).state = GameState.Over ↔
      ∀ j, bombB (uncover ordId wWin 0).1 j = false →
        coveredB (uncover ordId wWin 0).1 j = false :=
  C1_win_transition rfl
    (bombB_imp_coveredB_of_forall_lt (by decide))
    ⟨1, by decide⟩ (by decide)

/-- C5: revealing a covered, unflagged cell signals a mine hit exactly when
that cell is a mine; on a hit the cell becomes the exploded mine display,
every other cell is untouched by the reveal itself (no cascade from a mine
hit), and the session moves to the terminal phase.  Chords are treated in
C4; a reveal of a flagged cell never fires (`uncover` returns unchanged). -/
theorem C5_mine_hit {s : Session} {t : Nat} {ent : Ent}
    (hw : s.world[t]? = some ent) (hcov : ent.covered = true)
    (hf : ent.flagged = false) (hrun : s.state = GameState.Running) :
    ((uncover ordId s.world t).2 = true ↔ ent.cell.is_bomb = true) ∧
    (ent.cell.is_bomb = true →
      (uncover ordId s.world t).1 = s.world.set t (uncoverEnt ent .bomb) ∧
      (sessionStep ordId s (Cmd.reveal t)).state = GameState.Over) := by
  obtain ⟨w, st⟩ := s
  simp only at hw hrun
  subst hrun
  have hu := uncover_covered_eq (o := ordId) hw hf hcov
  constructor
  · constructor
    · intro hhit
      by_cases hb : ent.cell.is_bomb = true
      · exact hb
      · exfalso
        have hsafe := process_single_safe_hit ordId_lawful hw (bool_eq_false hb)
        rw [hu, hsafe] at hhit
        cases hhit
    · intro hb
      rw [hu, process_single_bomb ordId_lawful hw hcov hb]
  · intro hb
    have hps := process_single_bomb ordId_lawful hw hcov hb
    refine ⟨by rw [hu, hps], ?_⟩
    have hhit : (uncover ordId w t).2 = true := by
      rw [hu, hps]
    simp only [sessionStep, hhit, if_true]

/-- C5, witness: clicking the only cell of the one-mine board explodes it,
leaves exactly that cell changed and ends the session. -/
theorem C5_mine_hit_witness :
    ((uncover ordId wMine 0).2 = true ↔
      ({ x := 0, y := 0, is_bomb := true } : Cell).is_bomb = true) ∧
    (uncover ordId wMine 0).1 = wMine.set 0
      (uncoverEnt
        { cell := { x := 0, y := 0, is_bomb := true },
          material := .covered, covered := true, flagged := false } .bomb) ∧
    (sessionStep ordId { world := wMine, state := .Running }
      (Cmd.reveal 0)).state = GameState.Over := by
  have h := @C5_mine_hit { world := wMine, state := .Running } 0
    { cell := { x := 0, y := 0, is_bomb := true },
      material := .covered, covered := true, flagged := false }
    (by decide) (by decide) (by decide) rfl
  exact ⟨h.1, (h.2 (by decide)).1, (h.2 (by decide)).2⟩

/-- C6: for positive dimensions and a nonnegative mine budget, every shuffle
outcome of `Board::new` (any permutation of the pre-shuffle boolean vector)
yields exactly `W*H` cells of which exactly `min(B, W*H)` are mines, the
cell in slot `i` carries the coordinates `(i % W, i / W)`, and `prepare`
spawns every cell (mine or not) covered, unflagged, with the covered
material. -/
theorem C6_board_generation {W H B : Int} (hW : 0 < W) (hH : 0 < H)
    (hB : 0 ≤ B) {bs : List Bool}
    (hperm : List.Perm bs (initialBombs W H B)) :
    (boardCells W bs).length = (W * H).toNat ∧
    ((boardCells W bs).filter (fun c => c.is_bomb)).length =
      (min B (W * H)).toNat ∧
    (∀ i, i < (W * H).toNat → ∃ b,
      bs[i]? = some b ∧
      (boardCells W bs)[i]? =
        some { x := (i : Int) % W, y := (i : Int) / W, is_bomb := b } ∧
      (spawnWorld (boardCells W bs))[i]? =
        some { cell := { x := (i : Int) % W, y := (i : Int) / W, is_bomb := b },
               material := .covered, covered := true, flagged := false }) := by
  have hlen : bs.length = (W * H).toNat := by
    rw [hperm.length_eq, initialBombs_length]
  refine ⟨by rw [boardCells_length, hlen], ?_, ?_⟩
  · rw [boardCells_bomb_count, hperm.count_eq, initialBombs_count]
    omega
  · intro i hi
    have hib : i < bs.length := by omega
    refine ⟨bs[i], List.getElem?_eq_getElem hib, ?_, ?_⟩
    · rw [boardCells_getElem?, List.getElem?_eq_getElem hib]
      rfl
    · rw [spawnWorld_getElem?, boardCells_getElem?, List.getElem?_eq_getElem hib]
      rfl

/-- C6, witness: a concrete shuffle outcome of `Board::new(2, 2, 1)`. -/
theorem C6_board_generation_witness :
    (boardCells 2 [false, true, false, false]).length = ((2 : Int) * 2).toNat ∧
    ((boardCells 2 [false, true, false, false]).filter
      (fun c => c.is_bomb)).length = (min (1 : Int) (2 * 2)).toNat := by
  have h := @C6_board_generation 2 2 1 (by decide) (by decide) (by decide)
    [false, true, false, false]
    (bool_perm_of_count (by decide) (by decide))
  exact ⟨h.1, h.2.1⟩

/-- C10: on a canonically generated board, `count_adjacents` succeeds for
every in-bounds target (it is a pure function with no other effect), and the
adjacency filter selects exactly the in-bounds cells whose coordinates
differ from the target's by at most one in each axis and are not the
target's own — every such coordinate pair is realised by exactly the slot
`y*W + x`, and there are at most eight such cells. -/
theorem C10_neighbourhood {W H : Int} (hW : 0 < W) (hH : 0 < H)
    {bs : List Bool} (hbs : bs.length = (W * H).toNat) {t : Nat}
    (ht : t < (W * H).toNat) :
    (count_adjacents (spawnWorld (boardCells W bs)) t).isSome = true ∧
    (∀ j, j ∈ adjIdxs (spawnWorld (boardCells W bs)) t ↔
      (j < (W * H).toNat ∧
       |(j : Int) % W - (t : Int) % W| ≤ 1 ∧
       |(j : Int) / W - (t : Int) / W| ≤ 1 ∧
       ¬((j : Int) % W = (t : Int) % W ∧ (j : Int) / W = (t : Int) / W))) ∧
    (∀ x' y' : Int, 0 ≤ x' → x' < W → 0 ≤ y' → y' < H →
      |x' - (t : Int) % W| ≤ 1 → |y' - (t : Int) / W| ≤ 1 →
      ¬(x' = (t : Int) % W ∧ y' = (t : Int) / W) →
      ∃ j ∈ adjIdxs (spawnWorld (boardCells W bs)) t,
        (j : Int) % W = x' ∧ (j : Int) / W = y') ∧
    (adjIdxs (spawnWorld (boardCells W bs)) t).length ≤ 8 := by
  have htb : t < bs.length := by omega
  refine ⟨?_, ?_, ?_, canonical_adjIdxs_card hW hH hbs t⟩
  · unfold count_adjacents
    rw [canonical_getElem htb]
    rfl
  · intro j
    rw [canonical_adjIdxs_iff htb, hbs]
  · intro x' y' hx0 hxW hy0 hyH hdx hdy hne
    obtain ⟨hcast, hlt, hmod, hdiv⟩ := coords_to_index hW hH hx0 hxW hy0 hyH
    refine ⟨(y' * W + x').toNat, ?_, hmod, hdiv⟩
    rw [canonical_adjIdxs_iff htb]
    refine ⟨by omega, ?_, ?_, ?_⟩
    · rw [hmod]
      exact hdx
    · rw [hdiv]
      exact hdy
    · rw [hmod, hdiv]
      exact hne

/-- C10, witness: the centre of a three-by-three board. -/
theorem C10_neighbourhood_witness :
    (count_adjacents (spawnWorld (boardCells 3
      [false, false, false, false, false, false, false, false, false]))
      4).isSome = true ∧
    (adjIdxs (spawnWorld (boardCells 3
      [false, false, false, false, false, false, false, false, false]))
      4).length ≤ 8 := by
  have h := @C10_neighbourhood 3 3 (by decide) (by decide)
    [false, false, false, false, false, false, false, false, false]
    (by decide) 4 (by decide)
  exact ⟨h.1, h.2.2.2⟩

set_option maxHeartbeats 16000000 in
set_option maxRecDepth 200000 in
/-- C2, refuted by evaluation: the claim that the adjacent-mine count of a
non-mine cell being uncovered is at most 7 is false, so the indexing
`materials.count[cnt_bombs]` is not always in bounds.  `bs480` is a possible
shuffle outcome of `Board::new(30, 16, 70)` (it is a permutation of the
pre-shuffle vector) whose non-mine cell in slot 31 — coordinates (1, 1),
covered and unflagged on the fresh board — has eight adjacent mines.
Clicking it reaches `on_uncover` with `cnt_bombs = 8` while the `count`
material array has only eight entries (indices 0 to 7), so the Rust code
indexes past the end of the array and panics; the embedding records the
uncovered cell with the total material `count 8`. -/
theorem C2_count_index_overflow :
    List.Perm bs480 (initialBombs 30 16 70) ∧
    bombB w480 31 = false ∧ coveredB w480 31 = true ∧
    flaggedB w480 31 = false ∧
    cntBombsAt w480 31 = 8 ∧
    materialsCount.length = 8 ∧ materialsCount[8]? = none ∧
    (uncover ordId w480 31).1[31]? = some
      { cell := { x := 1, y := 1, is_bomb := false },
        material := MaterialKind.count 8, covered := false, flagged := false } := by
  refine ⟨bool_perm_of_count (by decide) (by decide), ?_⟩
  decide
